import Mathlib

/-!
# Verification of the crunch-lang compiler core

Shallow embedding of the parts of the `crunch-lang` repository that the
claims concern, together with proofs about them.

Conventions used throughout:
* Machine pointers and `usize` values are modelled as `Nat`.  The two heap
  halves are given by arbitrary base addresses `left` and `right`; pointer
  arithmetic in the source never overflows in the scenarios the claims
  quantify over, so no `% 2^64` is required.
* Rust's `HashMap` is modelled as an association list (`insert` replaces the
  first binding with the key, or appends).  The only place where hash-map
  iteration order is observable is the copy loop of `Gc::collect`; the model
  fixes it to insertion order, which is noted where it matters.
* A Rust `Vec` used as a work stack (`push`/`pop` at the end) is modelled as
  a `List` whose *head* is the top of the stack; `extend_from_slice(s)`
  therefore becomes `s.reverse ++ stack`.
* Functions of the source that need not terminate (`Gc::fetch_value_mut`,
  `Engine::unify`, `Engine::reconstruct`) take a fuel argument and return
  `none` when the execution does not return (unbounded recursion or an
  index panic).  Functions that always terminate (`Gc::collect`) are defined
  by well-founded recursion, exactly as total as the source.
-/

namespace Crunch

/-! ## Garbage collector (src/src/gc/mod.rs)

`GcValue` is the per-allocation record: its id, its size in bytes, its
child edges and the mark bit used during collection. -/

structure GcValue where
  id : Nat
  size : Nat
  children : List Nat
  marked : Bool
deriving Repr, DecidableEq

/-- The allocation map `AllocId -> (HeapPointer, GcValue)`, modelled as an
association list `key × (ptr × value)`. -/
abbrev AMap := List (Nat × Nat × GcValue)

/-- First binding with the given key (HashMap `get`). -/
def lookupA : AMap → Nat → Option (Nat × GcValue)
  | [], _ => none
  | (k2, pv) :: rest, k => if k2 = k then some pv else lookupA rest k

/-- HashMap `insert`: replace the first binding with the key, else append. -/
def insertA : AMap → Nat → Nat × GcValue → AMap
  | [], k, pv => [(k, pv)]
  | (k2, pv2) :: rest, k, pv =>
    if k2 = k then (k2, pv) :: rest else (k2, pv2) :: insertA rest k pv

/-- Set the mark bit of the first binding with the given key. -/
def setMarked : AMap → Nat → Bool → AMap
  | [], _, _ => []
  | (k2, p, v) :: rest, k, b =>
    if k2 = k then (k2, p, { v with marked := b }) :: rest
    else (k2, p, v) :: setMarked rest k b

/-- The keys of an allocation map. -/
def keysA (m : AMap) : List Nat := m.map (·.1)

/-- Number of unmarked entries; termination measure for the mark loop. -/
def unmarkedCount : AMap → Nat
  | [] => 0
  | (_, _, v) :: rest => (if v.marked then 0 else 1) + unmarkedCount rest

/-- Number of marked entries; termination measure for the unmark loop. -/
def markedCount : AMap → Nat
  | [] => 0
  | (_, _, v) :: rest => (if v.marked then 1 else 0) + markedCount rest

theorem lookupA_setMarked (m : AMap) (k : Nat) (b : Bool) (j : Nat) :
    lookupA (setMarked m k b) j =
      if j = k then (lookupA m j).map (fun pv => (pv.1, { pv.2 with marked := b }))
      else lookupA m j := by
  induction m with
  | nil => simp [setMarked, lookupA]
  | cons e rest ih =>
    obtain ⟨k2, p, v⟩ := e
    simp only [setMarked, lookupA]
    by_cases hk : k2 = k
    · subst hk
      by_cases hj : k2 = j
      · subst hj
        simp [lookupA]
      · have hj2 : ¬j = k2 := fun h => hj h.symm
        simp [lookupA, hj, hj2]
    · by_cases hj : k2 = j
      · subst hj
        have hj2 : ¬k2 = k := hk
        simp [lookupA, hk, if_neg]
      · simp [lookupA, hk, hj, ih]

theorem unmarkedCount_setMarked_lt {m : AMap} {k : Nat} {p : Nat} {r : GcValue}
    (h : lookupA m k = some (p, r)) (hm : r.marked = false) :
    unmarkedCount (setMarked m k true) < unmarkedCount m := by
  induction m with
  | nil => simp [lookupA] at h
  | cons e rest ih =>
    obtain ⟨k2, p2, v2⟩ := e
    by_cases hk : k2 = k
    · subst hk
      simp only [lookupA, if_pos rfl] at h
      have hv : v2 = r := by
        have h2 := h
        simp at h2
        exact h2.2
      subst hv
      simp [setMarked, unmarkedCount, hm]
    · simp only [lookupA, if_neg hk] at h
      have hlt := ih h
      simp only [setMarked, if_neg hk, unmarkedCount]
      omega

theorem markedCount_setMarked_lt {m : AMap} {k : Nat} {p : Nat} {r : GcValue}
    (h : lookupA m k = some (p, r)) (hm : r.marked = true) :
    markedCount (setMarked m k false) < markedCount m := by
  induction m with
  | nil => simp [lookupA] at h
  | cons e rest ih =>
    obtain ⟨k2, p2, v2⟩ := e
    by_cases hk : k2 = k
    · subst hk
      simp only [lookupA, if_pos rfl] at h
      have hv : v2 = r := by
        have h2 := h
        simp at h2
        exact h2.2
      subst hv
      simp [setMarked, markedCount, hm]
    · simp only [lookupA, if_neg hk] at h
      have hlt := ih h
      simp only [setMarked, if_neg hk, markedCount]
      omega

/-- The mark phase of `Gc::collect`: pop an id off the work stack; if it is
live and unmarked, mark it, record `(self.id, (ptr, clone))` in `keep` and
push its children (`GcValue::collect`).  The stack top is the list head. -/
def markLoop (allocs : AMap) (queue : List Nat) (keep : AMap) : AMap × AMap :=
  match queue with
  | [] => (allocs, keep)
  | val :: rest =>
    match h : lookupA allocs val with
    | none => markLoop allocs rest keep
    | some (ptr, root) =>
      if hm : root.marked then markLoop allocs rest keep
      else
        markLoop (setMarked allocs val true) (root.children.reverse ++ rest)
          (insertA keep root.id (ptr, { root with marked := true }))
termination_by (unmarkedCount allocs, queue.length)
decreasing_by
  · exact Prod.Lex.right _ (Nat.lt_succ_self _)
  · exact Prod.Lex.right _ (Nat.lt_succ_self _)
  · exact Prod.Lex.left _ _ (unmarkedCount_setMarked_lt h (by simpa using hm))

/-- The copy phase of `Gc::collect`: move each kept allocation to the new
side, bumping `latest` by its size.  Returns the rebuilt allocation map and
the final `latest`. -/
def copyLoop (keep : AMap) (latest : Nat) : AMap × Nat :=
  match keep with
  | [] => ([], latest)
  | (id, _oldPtr, v) :: rest =>
    let x := copyLoop rest (latest + v.size)
    ((id, latest, v) :: x.1, x.2)

/-- The unmark phase of `Gc::collect`: walk from the roots again and clear
the mark bit of every marked reachable allocation (`GcValue::unmark`). -/
def unmarkLoop (allocs : AMap) (queue : List Nat) : AMap :=
  match queue with
  | [] => allocs
  | val :: rest =>
    match h : lookupA allocs val with
    | none => unmarkLoop allocs rest
    | some (_ptr, root) =>
      if hm : root.marked then
        unmarkLoop (setMarked allocs val false) (root.children.reverse ++ rest)
      else unmarkLoop allocs rest
termination_by (markedCount allocs, queue.length)
decreasing_by
  · exact Prod.Lex.right _ (Nat.lt_succ_self _)
  · exact Prod.Lex.left _ _ (markedCount_setMarked_lt h (by simpa using hm))
  · exact Prod.Lex.right _ (Nat.lt_succ_self _)

/-- Which heap half is active (`Side`). -/
inductive Side | left | right
deriving Repr, DecidableEq

def Side.not : Side → Side
  | .left => .right
  | .right => .left

inductive RuntimeErrorTy | gcError
deriving Repr, DecidableEq

/-- Rust `RuntimeError { ty, message }`. -/
structure RuntimeError where
  ty : RuntimeErrorTy
  message : String
deriving Repr, DecidableEq

deriving instance DecidableEq for Except

/-- The GC state.  `overwrite_heap` and `debug` only cause byte-level side
effects (zeroing, dump files) invisible to this model and are omitted. -/
structure Gc where
  roots : List Nat
  left : Nat
  right : Nat
  latest : Nat
  current_side : Side
  allocations : AMap
  next_id : Nat
  heap_size : Nat
  burn_gc : Bool
deriving Repr, DecidableEq

/-- `Gc::get_side`: base address of the active half. -/
def Gc.get_side (gc : Gc) : Nat :=
  match gc.current_side with
  | .left => gc.left
  | .right => gc.right

/-- Base address of the inactive half (`!self.current_side`). -/
def Gc.other_side (gc : Gc) : Nat :=
  match gc.current_side.not with
  | .left => gc.left
  | .right => gc.right

/-- `Gc::collect`: mark from the roots, reset `latest` to the other half,
copy the kept allocations over (in the `keep` map's iteration order, fixed
here to insertion order), flip the side and unmark from the roots. -/
def Gc.collect (gc : Gc) : Gc :=
  let mk := markLoop gc.allocations gc.roots.reverse []
  let cp := copyLoop mk.2 gc.other_side
  { gc with
    latest := cp.2
    allocations := unmarkLoop cp.1 gc.roots.reverse
    current_side := gc.current_side.not }

/-- The allocation bookkeeping at the end of `Gc::allocate`: mint the id,
insert the record, bump `latest`. -/
def Gc.finish_alloc (gc : Gc) (size : Nat) : Gc × Nat × Nat :=
  let new_id := gc.next_id
  let value : GcValue := { id := new_id, size := size, children := [], marked := false }
  ({ gc with
      allocations := insertA gc.allocations new_id (gc.latest, value)
      next_id := gc.next_id + 1
      latest := gc.latest + size },
   gc.latest, new_id)

/-- `Gc::allocate`.  Note the source's full-heap test is literally
`block_start <= active_base && block_end > active_base + heap_size`: the
first conjunct holds only when `latest` sits at the base of the active
half. -/
def Gc.allocate (gc0 : Gc) (size : Nat) : Gc × Except RuntimeError (Nat × Nat) :=
  let gc1 := if gc0.burn_gc then gc0.collect else gc0
  if gc1.latest ≤ gc1.get_side ∧ gc1.get_side + gc1.heap_size < gc1.latest + size then
    let gc2 := gc1.collect
    if gc2.latest ≤ gc2.get_side ∧ gc2.get_side + gc2.heap_size < gc2.latest + size then
      (gc2, .error { ty := .gcError, message := "The heap is full" })
    else
      let r := gc2.finish_alloc size
      (r.1, .ok r.2)
  else
    let r := gc1.finish_alloc size
    (r.1, .ok r.2)

/-- `Gc::allocate_zeroed` is `allocate` followed by zeroing the returned
bytes; the byte contents are outside this model. -/
def Gc.allocate_zeroed (gc : Gc) (size : Nat) : Gc × Except RuntimeError (Nat × Nat) :=
  gc.allocate size

/-- `Gc::get_ptr`. -/
def Gc.get_ptr (gc : Gc) (id : Nat) : Except RuntimeError Nat :=
  match lookupA gc.allocations id with
  | none => .error { ty := .gcError, message := "Requested value does not exist" }
  | some (ptr, _) => .ok ptr

/-- `Gc::add_root`: push, no validation. -/
def Gc.add_root (gc : Gc) (id : Nat) : Gc :=
  { gc with roots := gc.roots ++ [id] }

/-- Remove the first occurrence of `x`. -/
def removeFirst : List Nat → Nat → List Nat
  | [], _ => []
  | y :: rest, x => if y = x then rest else y :: removeFirst rest x

/-- `Gc::remove_root`: drop the first occurrence, collect if burn mode is
on, error when the id is not rooted. -/
def Gc.remove_root (gc : Gc) (id : Nat) : Gc × Except RuntimeError Unit :=
  if gc.roots.contains id then
    let gc2 := { gc with roots := removeFirst gc.roots id }
    (if gc2.burn_gc then gc2.collect else gc2, .ok ())
  else
    (gc, .error { ty := .gcError, message := "The object to be unrooted does not exist" })

/-- The search loop of `Gc::fetch_value_mut`: walk the stack from the
roots looking for an entry whose stored `id` equals the target; a popped id
with no entry is skipped, a non-matching live entry pushes its children.
The source loop has no cycle detection, so it need not terminate: `none`
models a non-returning run; `some none` is the exhausted-queue error path,
`some (some k)` the key at which the value was found. -/
def fetchKeyLoop (allocs : AMap) (queue : List Nat) (target : Nat) :
    Nat → Option (Option Nat)
  | 0 => none
  | fuel + 1 =>
    match queue with
    | [] => some none
    | val :: rest =>
      match lookupA allocs val with
      | none => fetchKeyLoop allocs rest target fuel
      | some (_p, root) =>
        if root.id = target then some (some val)
        else fetchKeyLoop allocs (root.children.reverse ++ rest) target fuel

/-- `Gc::add_child`: find the parent via `fetch_value_mut` and append the
child to its children list (`GcValue::add_child`); the child id is never
looked at. -/
def Gc.add_child (gc : Gc) (parent child : Nat) (fuel : Nat) :
    Option (Gc × Except RuntimeError Unit) :=
  match fetchKeyLoop gc.allocations gc.roots.reverse parent fuel with
  | none => none
  | some none =>
    some (gc, .error { ty := .gcError, message := "Requested value does not exist" })
  | some (some k) =>
    match lookupA gc.allocations k with
    | none =>
      some (gc, .error { ty := .gcError, message := "Requested value does not exist" })
    | some (p, v) =>
      some ({ gc with allocations :=
                insertA gc.allocations k (p, { v with children := v.children ++ [child] }) },
            .ok ())

/-- `Gc::write` takes `&self`: it validates the id and the size but never
moves `latest` or the allocation map.  The byte write itself is outside the
model, so only the result is produced. -/
def Gc.write (gc : Gc) (id : Nat) (tsize : Nat) : Except RuntimeError Unit :=
  match lookupA gc.allocations id with
  | none => .error { ty := .gcError, message := "Object to be written to does not exist" }
  | some (_ptr, val) =>
    if tsize = val.size then .ok ()
    else .error { ty := .gcError, message := "Size Misalign" }

/-- `GcData` as produced by `Gc::data` (`heap_usage = latest - active base`,
computed in `usize`; in every reachable state of the claims
`latest ≥ active base`, so `Nat` subtraction agrees). -/
structure GcData where
  heap_size : Nat
  heap_usage : Nat
  num_roots : Nat
  num_allocations : Nat
deriving Repr, DecidableEq

def Gc.data (gc : Gc) : GcData :=
  { heap_size := gc.heap_size
    heap_usage := gc.latest - gc.get_side
    num_roots := gc.roots.length
    num_allocations := gc.allocations.length }

/-- `Gc::new` for given half bases: empty, left side active, `latest` at the
left base. -/
def Gc.new (left right heap_size : Nat) (burn : Bool) : Gc :=
  { roots := []
    left := left
    right := right
    latest := left
    current_side := .left
    allocations := []
    next_id := 0
    heap_size := heap_size
    burn_gc := burn }

/-! ### Equation lemmas for the collection loops -/

theorem markLoop_nil (allocs keep : AMap) : markLoop allocs [] keep = (allocs, keep) := by
  rw [markLoop]

theorem markLoop_cons_dead {allocs : AMap} {val : Nat} (q : List Nat) (keep : AMap)
    (h : lookupA allocs val = none) :
    markLoop allocs (val :: q) keep = markLoop allocs q keep := by
  rw [markLoop]
  split <;> simp_all

theorem markLoop_cons_marked {allocs : AMap} {val p : Nat} {r : GcValue}
    (q : List Nat) (keep : AMap)
    (h : lookupA allocs val = some (p, r)) (hm : r.marked = true) :
    markLoop allocs (val :: q) keep = markLoop allocs q keep := by
  rw [markLoop]
  split <;> simp_all

theorem markLoop_cons_live {allocs : AMap} {val p : Nat} {r : GcValue}
    (q : List Nat) (keep : AMap)
    (h : lookupA allocs val = some (p, r)) (hm : r.marked = false) :
    markLoop allocs (val :: q) keep =
      markLoop (setMarked allocs val true) (r.children.reverse ++ q)
        (insertA keep r.id (p, { r with marked := true })) := by
  rw [markLoop]
  split <;> simp_all

theorem unmarkLoop_nil (allocs : AMap) : unmarkLoop allocs [] = allocs := by
  rw [unmarkLoop]

theorem unmarkLoop_cons_dead {allocs : AMap} {val : Nat} (q : List Nat)
    (h : lookupA allocs val = none) :
    unmarkLoop allocs (val :: q) = unmarkLoop allocs q := by
  rw [unmarkLoop]
  split <;> simp_all

theorem unmarkLoop_cons_unmarked {allocs : AMap} {val p : Nat} {r : GcValue} (q : List Nat)
    (h : lookupA allocs val = some (p, r)) (hm : r.marked = false) :
    unmarkLoop allocs (val :: q) = unmarkLoop allocs q := by
  rw [unmarkLoop]
  split <;> simp_all

theorem unmarkLoop_cons_marked {allocs : AMap} {val p : Nat} {r : GcValue} (q : List Nat)
    (h : lookupA allocs val = some (p, r)) (hm : r.marked = true) :
    unmarkLoop allocs (val :: q) =
      unmarkLoop (setMarked allocs val false) (r.children.reverse ++ q) := by
  rw [unmarkLoop]
  split <;> simp_all

/-! ### Reachability in the children graph -/

/-- `Reaches m s t`: there is a path from `s` to `t` along child edges such
that every node on the path (endpoints included) has an entry in `m`.  This
is exactly the set of ids the mark phase can discover starting from `s`. -/
inductive Reaches (allocs : AMap) : Nat → Nat → Prop
  | refl (k p : Nat) (v : GcValue) (h : lookupA allocs k = some (p, v)) :
      Reaches allocs k k
  | step (k p : Nat) (v : GcValue) (c t : Nat)
      (h : lookupA allocs k = some (p, v)) (hc : c ∈ v.children)
      (ht : Reaches allocs c t) : Reaches allocs k t

/-- Reachable from some element of a list of sources. -/
def ReachesList (allocs : AMap) (srcs : List Nat) (t : Nat) : Prop :=
  ∃ s ∈ srcs, Reaches allocs s t

/-- Every stored value records its own map key as its `id` field; this holds
for every `Gc` built by the API (`allocate` keys the map by the minted id,
`collect` re-keys by `GcValue.id`). -/
def WfIds (m : AMap) : Prop := ∀ k p v, lookupA m k = some (p, v) → v.id = k

/-- No entry is marked; the state between collections. -/
def AllUnmarked (m : AMap) : Prop := ∀ k p v, lookupA m k = some (p, v) → v.marked = false

def markedEntry (m : AMap) (k : Nat) : Prop :=
  ∃ p v, lookupA m k = some (p, v) ∧ v.marked = true

def markedIfEntry (m : AMap) (c : Nat) : Prop :=
  ∀ p v, lookupA m c = some (p, v) → v.marked = true

theorem Reaches.src_entry {m : AMap} {s t : Nat} (h : Reaches m s t) :
    ∃ p v, lookupA m s = some (p, v) := by
  cases h with
  | refl k p v h => exact ⟨p, v, h⟩
  | step k p v c t h hc ht => exact ⟨p, v, h⟩

theorem lookupA_setMarked_some {m : AMap} {k : Nat} {b : Bool} {j p : Nat} {v : GcValue}
    (h : lookupA (setMarked m k b) j = some (p, v)) :
    ∃ w : GcValue, lookupA m j = some (p, w) ∧ w.children = v.children ∧ w.id = v.id ∧
      w.size = v.size := by
  rw [lookupA_setMarked] at h
  by_cases hk : j = k
  · rw [if_pos hk, Option.map_eq_some'] at h
    obtain ⟨⟨q, w⟩, hw, hf⟩ := h
    simp only [Prod.mk.injEq] at hf
    obtain ⟨hq, hv⟩ := hf
    subst hq
    refine ⟨w, hw, ?_, ?_, ?_⟩ <;> rw [← hv]
  · rw [if_neg hk] at h
    exact ⟨v, h, rfl, rfl, rfl⟩

theorem lookupA_setMarked_some_rev {m : AMap} {j p : Nat} {v : GcValue} (k : Nat) (b : Bool)
    (h : lookupA m j = some (p, v)) :
    ∃ w : GcValue, lookupA (setMarked m k b) j = some (p, w) ∧ w.children = v.children ∧
      w.id = v.id ∧ w.size = v.size := by
  rw [lookupA_setMarked]
  by_cases hk : j = k
  · rw [if_pos hk, h]
    exact ⟨{ v with marked := b }, rfl, rfl, rfl, rfl⟩
  · rw [if_neg hk]
    exact ⟨v, h, rfl, rfl, rfl⟩

theorem reaches_setMarked_iff {m : AMap} {k : Nat} {b : Bool} {s t : Nat} :
    Reaches (setMarked m k b) s t ↔ Reaches m s t := by
  constructor
  · intro h
    induction h with
    | refl k2 p v h =>
      obtain ⟨w, hw, _, _, _⟩ := lookupA_setMarked_some h
      exact Reaches.refl _ p w hw
    | step k2 p v c t h hc ht ih =>
      obtain ⟨w, hw, hch, _, _⟩ := lookupA_setMarked_some h
      exact Reaches.step _ p w c t hw (by rwa [hch]) ih
  · intro h
    induction h with
    | refl k2 p v h =>
      obtain ⟨w, hw, _, _, _⟩ := lookupA_setMarked_some_rev k b h
      exact Reaches.refl _ p w hw
    | step k2 p v c t h hc ht ih =>
      obtain ⟨w, hw, hch, _, _⟩ := lookupA_setMarked_some_rev k b h
      exact Reaches.step _ p w c t hw (by rwa [hch]) ih

theorem WfIds.setMarked {m : AMap} (hw : WfIds m) (k : Nat) (b : Bool) :
    WfIds (setMarked m k b) := by
  intro j p v h
  obtain ⟨w, hw2, _, hid, _⟩ := lookupA_setMarked_some h
  rw [← hid]
  exact hw j p w hw2

theorem mem_keysA_insertA {m : AMap} {k : Nat} {pv : Nat × GcValue} {t : Nat} :
    t ∈ keysA (insertA m k pv) ↔ t = k ∨ t ∈ keysA m := by
  induction m with
  | nil => simp [insertA, keysA]
  | cons e rest ih =>
    obtain ⟨k2, pv2⟩ := e
    by_cases hk : k2 = k
    · subst hk
      simp [insertA, keysA]
    · simp only [insertA, if_neg hk, keysA, List.map_cons, List.mem_cons] at ih ⊢
      tauto

theorem lookupA_setMarked_ne {m : AMap} {k j : Nat} {b : Bool} (hj : ¬j = k) :
    lookupA (setMarked m k b) j = lookupA m j := by
  rw [lookupA_setMarked, if_neg hj]

theorem lookupA_setMarked_self {m : AMap} {k p : Nat} {v : GcValue} {b : Bool}
    (h : lookupA m k = some (p, v)) :
    lookupA (setMarked m k b) k = some (p, { v with marked := b }) := by
  rw [lookupA_setMarked, if_pos rfl, h]
  rfl

/-- Loop invariant of the mark phase: every already-marked entry has been
recorded in `keep` and each of its children is either still pending in the
work stack or already marked (if live at all). -/
def MarkInv (allocs : AMap) (queue : List Nat) (keep : AMap) : Prop :=
  ∀ k p v, lookupA allocs k = some (p, v) → v.marked = true →
    k ∈ keysA keep ∧ ∀ c ∈ v.children, c ∈ queue ∨ markedIfEntry allocs c

/-- Soundness of the mark phase: every key recorded in `keep` was already
there or is reachable from the work stack. -/
theorem markLoop_keep_sound (allocs : AMap) (queue : List Nat) (keep : AMap) :
    WfIds allocs →
    ∀ t, t ∈ keysA (markLoop allocs queue keep).2 →
      t ∈ keysA keep ∨ ReachesList allocs queue t := by
  induction allocs, queue, keep using markLoop.induct with
  | case1 allocs keep =>
    intro _ t ht
    rw [markLoop_nil] at ht
    exact Or.inl ht
  | case2 allocs keep val rest h ih =>
    intro hw t ht
    rw [markLoop_cons_dead _ _ h] at ht
    rcases ih hw t ht with h1 | ⟨s, hs, hr⟩
    · exact Or.inl h1
    · exact Or.inr ⟨s, List.mem_cons_of_mem _ hs, hr⟩
  | case3 allocs keep val rest ptr root h hm ih =>
    intro hw t ht
    rw [markLoop_cons_marked _ _ h hm] at ht
    rcases ih hw t ht with h1 | ⟨s, hs, hr⟩
    · exact Or.inl h1
    · exact Or.inr ⟨s, List.mem_cons_of_mem _ hs, hr⟩
  | case4 allocs keep val rest ptr root h hm ih =>
    intro hw t ht
    rw [markLoop_cons_live _ _ h (by simpa using hm)] at ht
    have hid : root.id = val := hw val ptr root h
    rcases ih (hw.setMarked val true) t ht with h1 | ⟨s, hs, hr⟩
    · rw [mem_keysA_insertA] at h1
      rcases h1 with rfl | h1
      · refine Or.inr ⟨val, List.mem_cons_self _ _, ?_⟩
        rw [hid]
        exact Reaches.refl _ ptr root h
      · exact Or.inl h1
    · have hr2 : Reaches allocs s t := reaches_setMarked_iff.mp hr
      rcases List.mem_append.mp hs with hs1 | hs2
      · have hsc : s ∈ root.children := List.mem_reverse.mp hs1
        exact Or.inr ⟨val, List.mem_cons_self _ _, Reaches.step _ ptr root s t h hsc hr2⟩
      · exact Or.inr ⟨s, List.mem_cons_of_mem _ hs2, hr2⟩

/-- With an exhausted work stack, everything reachable from a marked entry
has been recorded in `keep`. -/
theorem marked_reaches_in_keep {allocs keep : AMap}
    (hinv : MarkInv allocs [] keep) :
    ∀ s t, Reaches allocs s t → markedEntry allocs s → t ∈ keysA keep := by
  intro s t hr
  induction hr with
  | refl k p v h =>
    rintro ⟨p2, v2, h2, hm2⟩
    have hv : v.marked = true := by
      rw [h] at h2
      rw [show v = v2 from congrArg Prod.snd (Option.some.inj h2)]
      exact hm2
    exact (hinv k p v h hv).1
  | step k p v c t h hc ht ih =>
    rintro ⟨p2, v2, h2, hm2⟩
    have hv : v.marked = true := by
      rw [h] at h2
      rw [show v = v2 from congrArg Prod.snd (Option.some.inj h2)]
      exact hm2
    rcases (hinv k p v h hv).2 c hc with hc1 | hc2
    · exact absurd hc1 (List.not_mem_nil c)
    · obtain ⟨pc, vc, hcl⟩ := ht.src_entry
      exact ih ⟨pc, vc, hcl, hc2 pc vc hcl⟩

/-- Completeness of the mark phase: everything reachable from the work
stack (or from an already-marked entry) ends up recorded in `keep`. -/
theorem markLoop_keep_complete (allocs : AMap) (queue : List Nat) (keep : AMap) :
    WfIds allocs → MarkInv allocs queue keep →
    ∀ s t, Reaches allocs s t → (s ∈ queue ∨ markedEntry allocs s) →
      t ∈ keysA (markLoop allocs queue keep).2 := by
  induction allocs, queue, keep using markLoop.induct with
  | case1 allocs keep =>
    intro hw hinv s t hr hs
    rw [markLoop_nil]
    rcases hs with hs | hs
    · exact absurd hs (List.not_mem_nil s)
    · exact marked_reaches_in_keep hinv s t hr hs
  | case2 allocs keep val rest h ih =>
    intro hw hinv s t hr hs
    rw [markLoop_cons_dead _ _ h]
    refine ih hw ?_ s t hr ?_
    · intro k p v hk hkm
      obtain ⟨h1, h2⟩ := hinv k p v hk hkm
      refine ⟨h1, fun c hc => ?_⟩
      rcases h2 c hc with hcq | hcm
      · rcases List.mem_cons.mp hcq with rfl | hcq2
        · exact Or.inr (fun pc vc hcl => absurd hcl (by simp [h]))
        · exact Or.inl hcq2
      · exact Or.inr hcm
    · rcases hs with hs | hs
      · rcases List.mem_cons.mp hs with rfl | hs2
        · obtain ⟨p, v, hl⟩ := hr.src_entry
          rw [h] at hl
          cases hl
        · exact Or.inl hs2
      · exact Or.inr hs
  | case3 allocs keep val rest ptr root h hm ih =>
    intro hw hinv s t hr hs
    rw [markLoop_cons_marked _ _ h hm]
    refine ih hw ?_ s t hr ?_
    · intro k p v hk hkm
      obtain ⟨h1, h2⟩ := hinv k p v hk hkm
      refine ⟨h1, fun c hc => ?_⟩
      rcases h2 c hc with hcq | hcm
      · rcases List.mem_cons.mp hcq with rfl | hcq2
        · refine Or.inr (fun pc vc hcl => ?_)
          rw [h] at hcl
          rw [show vc = root from (congrArg Prod.snd (Option.some.inj hcl)).symm]
          exact hm
        · exact Or.inl hcq2
      · exact Or.inr hcm
    · rcases hs with hs | hs
      · rcases List.mem_cons.mp hs with rfl | hs2
        · exact Or.inr ⟨ptr, root, h, hm⟩
        · exact Or.inl hs2
      · exact Or.inr hs
  | case4 allocs keep val rest ptr root h hm ih =>
    intro hw hinv s t hr hs
    rw [markLoop_cons_live _ _ h (by simpa using hm)]
    have hid : root.id = val := hw val ptr root h
    have hval2 : lookupA (setMarked allocs val true) val =
        some (ptr, { root with marked := true }) := lookupA_setMarked_self h
    have hmie : markedIfEntry (setMarked allocs val true) val := by
      intro pc vc hcl
      rw [hval2] at hcl
      rw [show vc = { root with marked := true } from (congrArg Prod.snd (Option.some.inj hcl)).symm]
    have htrans : ∀ c, markedIfEntry allocs c → markedIfEntry (setMarked allocs val true) c := by
      intro c hc pc vc hcl
      by_cases hcv : c = val
      · exact hmie pc vc (hcv ▸ hcl)
      · exact hc pc vc (by rwa [lookupA_setMarked_ne hcv] at hcl)
    refine ih (hw.setMarked val true) ?_ s t (reaches_setMarked_iff.mpr hr) ?_
    · intro k p v hk hkm
      by_cases hkv : k = val
      · subst hkv
        rw [hval2] at hk
        have hvv : v = { root with marked := true } :=
          (congrArg Prod.snd (Option.some.inj hk)).symm
        constructor
        · rw [mem_keysA_insertA]
          exact Or.inl hid.symm
        · intro c hc
          rw [hvv] at hc
          exact Or.inl (List.mem_append_left _ (List.mem_reverse.mpr hc))
      · rw [lookupA_setMarked_ne hkv] at hk
        obtain ⟨h1, h2⟩ := hinv k p v hk hkm
        constructor
        · rw [mem_keysA_insertA]
          exact Or.inr h1
        · intro c hc
          rcases h2 c hc with hcq | hcm
          · rcases List.mem_cons.mp hcq with rfl | hcq2
            · exact Or.inr hmie
            · exact Or.inl (List.mem_append_right _ hcq2)
          · exact Or.inr (htrans c hcm)
    · rcases hs with hs | hs
      · rcases List.mem_cons.mp hs with rfl | hs2
        · exact Or.inr ⟨ptr, { root with marked := true }, hval2, rfl⟩
        · exact Or.inl (List.mem_append_right _ hs2)
      · obtain ⟨ps, vs, hsl, hsm⟩ := hs
        by_cases hsv : s = val
        · exact Or.inr ⟨ptr, { root with marked := true }, hsv ▸ hval2, rfl⟩
        · exact Or.inr ⟨ps, vs, by rwa [lookupA_setMarked_ne hsv], hsm⟩

/-! ### The copy and unmark phases -/

/-- Total size of the recorded allocations. -/
def sumSizes (m : AMap) : Nat := (m.map (fun e => e.2.2.size)).sum

theorem copyLoop_keys (keep : AMap) (base : Nat) :
    keysA (copyLoop keep base).1 = keysA keep := by
  induction keep generalizing base with
  | nil => simp [copyLoop, keysA]
  | cons e rest ih =>
    obtain ⟨id, op, v⟩ := e
    simp [copyLoop, keysA] at ih ⊢
    exact ih _

theorem copyLoop_latest (keep : AMap) (base : Nat) :
    (copyLoop keep base).2 = base + sumSizes keep := by
  induction keep generalizing base with
  | nil => simp [copyLoop, sumSizes]
  | cons e rest ih =>
    obtain ⟨id, op, v⟩ := e
    simp [copyLoop, sumSizes] at ih ⊢
    rw [ih]
    ring

theorem copyLoop_lookup (keep : AMap) (base : Nat) (hnd : (keysA keep).Nodup) :
    ∀ i (hi : i < keep.length),
      lookupA (copyLoop keep base).1 (keep.get ⟨i, hi⟩).1 =
        some (base + sumSizes (keep.take i), (keep.get ⟨i, hi⟩).2.2) := by
  induction keep generalizing base with
  | nil => intro i hi; simp at hi
  | cons e rest ih =>
    obtain ⟨id, op, v⟩ := e
    intro i hi
    match i with
    | 0 =>
      simp [copyLoop, lookupA, sumSizes]
    | n + 1 =>
      have hn : n < rest.length := by simpa using hi
      have hkey : (rest.get ⟨n, hn⟩).1 ∈ keysA rest := by
        simp only [keysA]
        exact List.mem_map_of_mem _ (rest.get_mem n hn)
      have hne : ¬id = (rest.get ⟨n, hn⟩).1 := by
        intro hcontra
        have : id ∉ keysA rest := by
          have := hnd
          simp only [keysA, List.map_cons, List.nodup_cons] at this
          exact this.1
        exact this (hcontra ▸ hkey)
      have hnd2 : (keysA rest).Nodup := by
        have := hnd
        simp only [keysA, List.map_cons, List.nodup_cons] at this
        exact this.2
      have := ih (base + v.size) hnd2 n hn
      simp only [copyLoop, lookupA, List.get_cons_succ, if_neg hne, List.take_succ_cons,
        sumSizes, List.map_cons, List.sum_cons] at this ⊢
      rw [this]
      simp [Nat.add_assoc]

theorem lookupA_eq_none_iff {m : AMap} {k : Nat} : lookupA m k = none ↔ k ∉ keysA m := by
  induction m with
  | nil => simp [lookupA, keysA]
  | cons e rest ih =>
    obtain ⟨k2, pv⟩ := e
    by_cases hk : k2 = k
    · subst hk
      simp [lookupA, keysA]
    · have hmem : k ∈ keysA ((k2, pv) :: rest) ↔ k = k2 ∨ k ∈ keysA rest := by
        simp [keysA]
      simp only [lookupA, if_neg hk]
      rw [ih]
      constructor
      · intro h hc
        rcases hmem.mp hc with h2 | h2
        · exact hk h2.symm
        · exact h h2
      · intro h h2
        exact h (hmem.mpr (Or.inr h2))

theorem lookupA_isSome_iff {m : AMap} {k : Nat} : (lookupA m k).isSome ↔ k ∈ keysA m := by
  rcases hl : lookupA m k with _ | pv
  · simp [lookupA_eq_none_iff.mp hl]
  · simp
    have : ¬lookupA m k = none := by simp [hl]
    rw [lookupA_eq_none_iff] at this
    simpa using this

theorem lookupA_setMarked_fst (m : AMap) (k : Nat) (b : Bool) (j : Nat) :
    (lookupA (setMarked m k b) j).map (fun pv => pv.1) =
      (lookupA m j).map (fun pv => pv.1) := by
  rw [lookupA_setMarked]
  by_cases hk : j = k
  · rw [if_pos hk, Option.map_map]
    rfl
  · rw [if_neg hk]

theorem unmarkLoop_lookup_fst (allocs : AMap) (queue : List Nat) (k : Nat) :
    (lookupA (unmarkLoop allocs queue) k).map (fun pv => pv.1) =
      (lookupA allocs k).map (fun pv => pv.1) := by
  induction allocs, queue using unmarkLoop.induct with
  | case1 allocs => rw [unmarkLoop_nil]
  | case2 allocs val rest h ih =>
    rw [unmarkLoop_cons_dead _ h]
    exact ih
  | case3 allocs val rest ptr root h hm ih =>
    rw [unmarkLoop_cons_marked _ h hm]
    rw [ih, lookupA_setMarked_fst]
  | case4 allocs val rest ptr root h hm ih =>
    rw [unmarkLoop_cons_unmarked _ h (by simpa using hm)]
    exact ih

theorem keysA_insertA_notin {m : AMap} {k : Nat} {pv : Nat × GcValue} (h : k ∉ keysA m) :
    keysA (insertA m k pv) = keysA m ++ [k] := by
  induction m with
  | nil => simp [insertA, keysA]
  | cons e rest ih =>
    obtain ⟨k2, pv2⟩ := e
    have hmem : k ∈ keysA ((k2, pv2) :: rest) ↔ k = k2 ∨ k ∈ keysA rest := by
      simp [keysA]
    have h1 : ¬k2 = k := fun hc => h (hmem.mpr (Or.inl hc.symm))
    have h2 : k ∉ keysA rest := fun hc => h (hmem.mpr (Or.inr hc))
    have hrw : insertA ((k2, pv2) :: rest) k pv = (k2, pv2) :: insertA rest k pv := by
      simp [insertA, h1]
    rw [hrw]
    show k2 :: keysA (insertA rest k pv) = (k2 :: keysA rest) ++ [k]
    rw [ih h2]
    simp

/-- The keys recorded by the mark phase are distinct: a key is inserted only
when its entry is still unmarked, and it is marked at the same moment. -/
theorem markLoop_keep_nodup (allocs : AMap) (queue : List Nat) (keep : AMap) :
    WfIds allocs → (keysA keep).Nodup → (∀ k ∈ keysA keep, markedEntry allocs k) →
    (keysA (markLoop allocs queue keep).2).Nodup := by
  induction allocs, queue, keep using markLoop.induct with
  | case1 allocs keep =>
    intro _ hnd _
    rw [markLoop_nil]
    exact hnd
  | case2 allocs keep val rest h ih =>
    intro hw hnd hmk
    rw [markLoop_cons_dead _ _ h]
    exact ih hw hnd hmk
  | case3 allocs keep val rest ptr root h hm ih =>
    intro hw hnd hmk
    rw [markLoop_cons_marked _ _ h hm]
    exact ih hw hnd hmk
  | case4 allocs keep val rest ptr root h hm ih =>
    intro hw hnd hmk
    rw [markLoop_cons_live _ _ h (by simpa using hm)]
    have hid : root.id = val := hw val ptr root h
    have hnotin : root.id ∉ keysA keep := by
      intro hcontra
      obtain ⟨p2, v2, h2, hm2⟩ := hmk root.id hcontra
      rw [hid, h] at h2
      rw [show v2 = root from (congrArg Prod.snd (Option.some.inj h2)).symm] at hm2
      exact hm (by simp [hm2])
    have hval2 : lookupA (setMarked allocs val true) val =
        some (ptr, { root with marked := true }) := lookupA_setMarked_self h
    have hval3 : lookupA (setMarked allocs val true) root.id =
        some (ptr, { root with marked := true }) := by
      conv_lhs => rw [hid]
      exact hval2
    refine ih (hw.setMarked val true) ?_ ?_
    · rw [keysA_insertA_notin hnotin, List.nodup_append]
      refine ⟨hnd, List.nodup_singleton _, fun a ha hb => ?_⟩
      simp only [List.mem_singleton] at hb
      exact hnotin (hb ▸ ha)
    · intro j hj
      rw [mem_keysA_insertA] at hj
      rcases hj with rfl | hj
      · exact ⟨ptr, { root with marked := true }, hval3, rfl⟩
      · obtain ⟨p2, v2, h2, hm2⟩ := hmk j hj
        by_cases hjv : j = val
        · exact ⟨ptr, { root with marked := true }, hjv ▸ hval2, rfl⟩
        · exact ⟨p2, v2, by rwa [lookupA_setMarked_ne hjv], hm2⟩

/-! ### Collect-level facts -/

theorem lookupA_insertA (m : AMap) (k : Nat) (pv : Nat × GcValue) (j : Nat) :
    lookupA (insertA m k pv) j = if j = k then some pv else lookupA m j := by
  induction m with
  | nil =>
    show (if k = j then some pv else none) = if j = k then some pv else none
    by_cases hj : j = k
    · rw [if_pos hj.symm, if_pos hj]
    · rw [if_neg (fun h => hj h.symm), if_neg hj]
  | cons e rest ih =>
    obtain ⟨k2, pv2⟩ := e
    by_cases hk : k2 = k
    · subst hk
      simp only [insertA, if_pos rfl]
      by_cases hj : j = k2
      · subst hj
        simp [lookupA]
      · have hj2 : ¬k2 = j := fun h => hj h.symm
        simp [lookupA, hj, hj2]
    · simp only [insertA, if_neg hk]
      by_cases hj : k2 = j
      · subst hj
        simp [lookupA, hk]
      · simp [lookupA, hj, ih]

theorem markLoop_keep_wfIds (allocs : AMap) (queue : List Nat) (keep : AMap) :
    WfIds keep → WfIds (markLoop allocs queue keep).2 := by
  induction allocs, queue, keep using markLoop.induct with
  | case1 allocs keep =>
    intro hk
    rw [markLoop_nil]
    exact hk
  | case2 allocs keep val rest h ih =>
    intro hk
    rw [markLoop_cons_dead _ _ h]
    exact ih hk
  | case3 allocs keep val rest ptr root h hm ih =>
    intro hk
    rw [markLoop_cons_marked _ _ h hm]
    exact ih hk
  | case4 allocs keep val rest ptr root h hm ih =>
    intro hk
    rw [markLoop_cons_live _ _ h (by simpa using hm)]
    refine ih ?_
    intro j p v hj
    rw [lookupA_insertA] at hj
    by_cases hjk : j = root.id
    · rw [if_pos hjk] at hj
      have := Option.some.inj hj
      rw [show v = { root with marked := true } from (congrArg Prod.snd this).symm, hjk]
    · rw [if_neg hjk] at hj
      exact hk j p v hj

theorem copyLoop_lookup_shape (keep : AMap) (base : Nat) (k : Nat) {p : Nat} {v : GcValue}
    (h : lookupA (copyLoop keep base).1 k = some (p, v)) :
    ∃ p0, lookupA keep k = some (p0, v) := by
  induction keep generalizing base with
  | nil => simp [copyLoop, lookupA] at h
  | cons e rest ih =>
    obtain ⟨id, op, w⟩ := e
    by_cases hk : id = k
    · subst hk
      have h2 : some (base, w) = some (p, v) := by simpa [copyLoop, lookupA] using h
      have hv : v = w := (congrArg Prod.snd (Option.some.inj h2)).symm
      exact ⟨op, by rw [hv]; simp [lookupA]⟩
    · simp only [copyLoop, lookupA, if_neg hk] at h ⊢
      exact ih _ h

theorem unmarkLoop_lookup_shape (allocs : AMap) (queue : List Nat) (k : Nat) :
    ∀ {p : Nat} {v : GcValue}, lookupA (unmarkLoop allocs queue) k = some (p, v) →
    ∃ w : GcValue, lookupA allocs k = some (p, w) ∧ w.children = v.children ∧
      w.id = v.id ∧ w.size = v.size := by
  induction allocs, queue using unmarkLoop.induct with
  | case1 allocs =>
    intro p v h
    rw [unmarkLoop_nil] at h
    exact ⟨v, h, rfl, rfl, rfl⟩
  | case2 allocs val rest h2 ih =>
    intro p v h
    rw [unmarkLoop_cons_dead _ h2] at h
    exact ih h
  | case3 allocs val rest ptr root h2 hm ih =>
    intro p v h
    rw [unmarkLoop_cons_marked _ h2 hm] at h
    obtain ⟨w, hw, hch, hid, hsz⟩ := ih h
    obtain ⟨w2, hw2, hch2, hid2, hsz2⟩ := lookupA_setMarked_some hw
    exact ⟨w2, hw2, hch2.trans hch, hid2.trans hid, hsz2.trans hsz⟩
  | case4 allocs val rest ptr root h2 hm ih =>
    intro p v h
    rw [unmarkLoop_cons_unmarked _ h2 (by simpa using hm)] at h
    exact ih h

theorem collect_allocations (gc : Gc) :
    (gc.collect).allocations =
      unmarkLoop (copyLoop (markLoop gc.allocations gc.roots.reverse []).2 gc.other_side).1
        gc.roots.reverse := rfl

theorem collect_latest (gc : Gc) :
    (gc.collect).latest =
      (copyLoop (markLoop gc.allocations gc.roots.reverse []).2 gc.other_side).2 := rfl

theorem collect_roots (gc : Gc) : (gc.collect).roots = gc.roots := rfl

theorem WfIds_collect {gc : Gc} : WfIds (gc.collect).allocations := by
  rw [collect_allocations]
  intro k p v h
  obtain ⟨w, hw, _, hid, _⟩ := unmarkLoop_lookup_shape _ _ _ h
  obtain ⟨p0, hp0⟩ := copyLoop_lookup_shape _ _ _ hw
  have hkeep : WfIds (markLoop gc.allocations gc.roots.reverse []).2 :=
    markLoop_keep_wfIds _ _ _ (fun j pj vj hj => by simp [lookupA] at hj)
  rw [← hid]
  exact hkeep k p0 w hp0

theorem markInv_initial {allocs : AMap} (hum : AllUnmarked allocs) (q : List Nat) :
    MarkInv allocs q [] := by
  intro k p v hk hm
  rw [hum k p v hk] at hm
  cases hm

theorem reachesList_reverse {allocs : AMap} {srcs : List Nat} {t : Nat} :
    ReachesList allocs srcs.reverse t ↔ ReachesList allocs srcs t := by
  constructor <;> rintro ⟨s, hs, hr⟩ <;>
    exact ⟨s, by simpa [List.mem_reverse] using hs, hr⟩

theorem isSome_of_map_fst_eq {o1 o2 : Option (Nat × GcValue)}
    (h : o1.map (fun pv => pv.1) = o2.map (fun pv => pv.1)) : o1.isSome = o2.isSome := by
  cases o1 <;> cases o2 <;> simp_all

/-- Presence and absence in the post-collection map reduce to membership of
the `keep` map of the mark phase. -/
theorem collect_lookup_isSome (gc : Gc) (t : Nat) :
    (lookupA (gc.collect).allocations t).isSome = true ↔
      t ∈ keysA (markLoop gc.allocations gc.roots.reverse []).2 := by
  rw [collect_allocations]
  rw [isSome_of_map_fst_eq (unmarkLoop_lookup_fst _ _ _)]
  rw [lookupA_isSome_iff, copyLoop_keys]

/-- Everything reachable from the roots survives a collection. -/
theorem collect_preserves {gc : Gc} (hw : WfIds gc.allocations)
    (hum : AllUnmarked gc.allocations) {t : Nat}
    (hr : ReachesList gc.allocations gc.roots t) :
    (lookupA (gc.collect).allocations t).isSome = true := by
  obtain ⟨s, hs, hrs⟩ := hr
  have ht : t ∈ keysA (markLoop gc.allocations gc.roots.reverse []).2 :=
    markLoop_keep_complete _ _ _ hw (markInv_initial hum _) s t hrs
      (Or.inl (List.mem_reverse.mpr hs))
  exact (collect_lookup_isSome gc t).mpr ht

/-- Nothing unreachable from the roots survives a collection. -/
theorem collect_reclaims {gc : Gc} (hw : WfIds gc.allocations) {t : Nat}
    (hnr : ¬ReachesList gc.allocations gc.roots t) :
    lookupA (gc.collect).allocations t = none := by
  have hns : t ∉ keysA (markLoop gc.allocations gc.roots.reverse []).2 := by
    intro hmem
    rcases markLoop_keep_sound _ _ _ hw t hmem with h1 | h2
    · simp [keysA] at h1
    · exact hnr (reachesList_reverse.mp h2)
  rcases hl : lookupA (gc.collect).allocations t with _ | pv
  · rfl
  · exact absurd ((collect_lookup_isSome gc t).mp (by rw [hl]; rfl)) hns

/-! ### Fueled evaluators

The loops of `Gc::collect` are defined by well-founded recursion and hence
do not reduce definitionally; the following structural twins evaluate them
on concrete states, with a bridging lemma each. -/

def markLoopF : Nat → AMap → List Nat → AMap → Option (AMap × AMap)
  | 0, _, _, _ => none
  | _ + 1, allocs, [], keep => some (allocs, keep)
  | fuel + 1, allocs, val :: rest, keep =>
    match lookupA allocs val with
    | none => markLoopF fuel allocs rest keep
    | some (ptr, root) =>
      if root.marked then markLoopF fuel allocs rest keep
      else
        markLoopF fuel (setMarked allocs val true) (root.children.reverse ++ rest)
          (insertA keep root.id (ptr, { root with marked := true }))

theorem markLoopF_eq : ∀ (fuel : Nat) (allocs : AMap) (queue : List Nat) (keep : AMap)
    (r : AMap × AMap), markLoopF fuel allocs queue keep = some r →
    markLoop allocs queue keep = r := by
  intro fuel
  induction fuel with
  | zero => intro allocs queue keep r h; cases h
  | succ n ih =>
    intro allocs queue keep r h
    match queue with
    | [] =>
      rw [markLoop_nil]
      simpa [markLoopF] using h
    | val :: rest =>
      rcases hl : lookupA allocs val with _ | ⟨ptr, root⟩
      · rw [markLoop_cons_dead _ _ hl]
        refine ih _ _ _ _ ?_
        rw [markLoopF, hl] at h
        exact h
      · rcases hm : root.marked with _ | _
        · rw [markLoop_cons_live _ _ hl hm]
          refine ih _ _ _ _ ?_
          rw [markLoopF, hl] at h
          simpa [hm] using h
        · rw [markLoop_cons_marked _ _ hl hm]
          refine ih _ _ _ _ ?_
          rw [markLoopF, hl] at h
          simpa [hm] using h

def unmarkLoopF : Nat → AMap → List Nat → Option AMap
  | 0, _, _ => none
  | _ + 1, allocs, [] => some allocs
  | fuel + 1, allocs, val :: rest =>
    match lookupA allocs val with
    | none => unmarkLoopF fuel allocs rest
    | some (_ptr, root) =>
      if root.marked then
        unmarkLoopF fuel (setMarked allocs val false) (root.children.reverse ++ rest)
      else unmarkLoopF fuel allocs rest

theorem unmarkLoopF_eq : ∀ (fuel : Nat) (allocs : AMap) (queue : List Nat)
    (r : AMap), unmarkLoopF fuel allocs queue = some r →
    unmarkLoop allocs queue = r := by
  intro fuel
  induction fuel with
  | zero => intro allocs queue r h; cases h
  | succ n ih =>
    intro allocs queue r h
    match queue with
    | [] =>
      rw [unmarkLoop_nil]
      simpa [unmarkLoopF] using h
    | val :: rest =>
      rcases hl : lookupA allocs val with _ | ⟨ptr, root⟩
      · rw [unmarkLoop_cons_dead _ hl]
        refine ih _ _ _ ?_
        rw [unmarkLoopF, hl] at h
        exact h
      · rcases hm : root.marked with _ | _
        · rw [unmarkLoop_cons_unmarked _ hl hm]
          refine ih _ _ _ ?_
          rw [unmarkLoopF, hl] at h
          simpa [hm] using h
        · rw [unmarkLoop_cons_marked _ hl hm]
          refine ih _ _ _ ?_
          rw [unmarkLoopF, hl] at h
          simpa [hm] using h

def collectF (gc : Gc) (fuel : Nat) : Option Gc :=
  match markLoopF fuel gc.allocations gc.roots.reverse [] with
  | none => none
  | some mk =>
    let cp := copyLoop mk.2 gc.other_side
    match unmarkLoopF fuel cp.1 gc.roots.reverse with
    | none => none
    | some al =>
      some { gc with
              latest := cp.2
              allocations := al
              current_side := gc.current_side.not }

theorem collectF_eq {gc : Gc} {fuel : Nat} {g2 : Gc} (h : collectF gc fuel = some g2) :
    gc.collect = g2 := by
  unfold collectF at h
  rcases hmk : markLoopF fuel gc.allocations gc.roots.reverse [] with _ | mk
  · rw [hmk] at h
    cases h
  · rw [hmk] at h
    have hmk2 := markLoopF_eq _ _ _ _ _ hmk
    rcases hum : unmarkLoopF fuel (copyLoop mk.2 gc.other_side).1 gc.roots.reverse with _ | al
    · simp only [hum] at h
      cases h
    · simp only [hum] at h
      have hum2 := unmarkLoopF_eq _ _ _ _ hum
      rw [show g2 = { gc with
            latest := (copyLoop mk.2 gc.other_side).2
            allocations := al
            current_side := gc.current_side.not } from (Option.some.inj h).symm]
      show ({ gc with latest := _, allocations := _, current_side := _ } : Gc) = _
      rw [hmk2, hum2]

/-! ### Helpers for concrete states -/

theorem WfIds_of_forall {m : AMap} (h : ∀ e ∈ m, e.2.2.id = e.1) : WfIds m := by
  intro k p v hl
  induction m with
  | nil => simp [lookupA] at hl
  | cons e rest ih =>
    obtain ⟨k2, p2, v2⟩ := e
    by_cases hk : k2 = k
    · subst hk
      have h2 : some (p2, v2) = some (p, v) := by simpa [lookupA] using hl
      have hv : v = v2 := (congrArg Prod.snd (Option.some.inj h2)).symm
      rw [hv]
      exact h (k2, p2, v2) (List.mem_cons_self _ _)
    · simp only [lookupA, if_neg hk] at hl
      exact ih (fun e he => h e (List.mem_cons_of_mem _ he)) hl

theorem AllUnmarked_of_forall {m : AMap} (h : ∀ e ∈ m, e.2.2.marked = false) :
    AllUnmarked m := by
  intro k p v hl
  induction m with
  | nil => simp [lookupA] at hl
  | cons e rest ih =>
    obtain ⟨k2, p2, v2⟩ := e
    by_cases hk : k2 = k
    · subst hk
      have h2 : some (p2, v2) = some (p, v) := by simpa [lookupA] using hl
      have hv : v = v2 := (congrArg Prod.snd (Option.some.inj h2)).symm
      rw [hv]
      exact h (k2, p2, v2) (List.mem_cons_self _ _)
    · simp only [lookupA, if_neg hk] at hl
      exact ih (fun e he => h e (List.mem_cons_of_mem _ he)) hl

theorem reachesList_nil {allocs : AMap} {t : Nat} : ¬ReachesList allocs [] t := by
  rintro ⟨s, hs, _⟩
  cases hs

theorem get_ptr_ok_of_isSome {gc : Gc} {t : Nat}
    (h : (lookupA gc.allocations t).isSome = true) : ∃ p, gc.get_ptr t = .ok p := by
  rcases hl : lookupA gc.allocations t with _ | ⟨p, v⟩
  · rw [hl] at h
    cases h
  · exact ⟨p, by unfold Gc.get_ptr; rw [hl]⟩

theorem get_ptr_error_of_none {gc : Gc} {t : Nat} (h : lookupA gc.allocations t = none) :
    gc.get_ptr t = .error { ty := .gcError, message := "Requested value does not exist" } := by
  unfold Gc.get_ptr
  rw [h]

theorem WfIds_remove_root {gc : Gc} (hw : WfIds gc.allocations) (id : Nat) :
    WfIds ((gc.remove_root id).1).allocations := by
  unfold Gc.remove_root
  by_cases hc : gc.roots.contains id = true
  · rw [if_pos hc]
    by_cases hb : gc.burn_gc = true
    · show WfIds ((if _ = true then _ else _ : Gc)).allocations
      rw [if_pos hb]
      exact WfIds_collect
    · show WfIds ((if _ = true then _ else _ : Gc)).allocations
      rw [if_neg hb]
      exact hw
  · rw [if_neg hc]
    exact hw

/-- Stepping lemma for `Gc::allocate` in the failing branch: burn mode off,
the guard fires, the retry after the collection fires again. -/
theorem allocate_full {gc0 : Gc} {size : Nat} (hburn : gc0.burn_gc = false)
    (h1 : gc0.latest ≤ gc0.get_side ∧
      gc0.get_side + gc0.heap_size < gc0.latest + size)
    (h2 : (gc0.collect).latest ≤ (gc0.collect).get_side ∧
      (gc0.collect).get_side + (gc0.collect).heap_size < (gc0.collect).latest + size) :
    gc0.allocate size =
      (gc0.collect, .error { ty := .gcError, message := "The heap is full" }) := by
  unfold Gc.allocate
  simp only [hburn, Bool.false_eq_true, if_false]
  rw [if_pos h1, if_pos h2]

/-- Stepping lemma for `Gc::allocate` in the immediate-success branch. -/
theorem allocate_fits {gc0 : Gc} {size : Nat} (hburn : gc0.burn_gc = false)
    (h1 : ¬(gc0.latest ≤ gc0.get_side ∧
      gc0.get_side + gc0.heap_size < gc0.latest + size)) :
    gc0.allocate size = ((gc0.finish_alloc size).1, .ok (gc0.finish_alloc size).2) := by
  unfold Gc.allocate
  simp only [hburn, Bool.false_eq_true, if_false]
  rw [if_neg h1]

/-! ### Claim theorems for the garbage collector -/

/-- C1 is a code bug: the source's full-heap guard is
`block_start <= active_base && block_end > active_base + heap_size`, whose
first conjunct fails as soon as anything is allocated, so a second
allocation can push `latest` past the end of the active semi-space.
Failing input: `heap_size = 100`, `allocate 60` twice; both calls succeed
and `latest` ends at `active_base + 120 > active_base + 100`. -/
theorem C1_allocate_overflows_heap :
    (((Gc.new 0 1000 100 false).allocate 60).2 = .ok (0, 0)) ∧
    (((((Gc.new 0 1000 100 false).allocate 60).1).allocate 60).2 = .ok (60, 1)) ∧
    (((((Gc.new 0 1000 100 false).allocate 60).1).allocate 60).1.latest = 120) ∧
    (((((Gc.new 0 1000 100 false).allocate 60).1).allocate 60).1.get_side = 0) ∧
    (((((Gc.new 0 1000 100 false).allocate 60).1).allocate 60).1.heap_size = 100) := by
  refine ⟨rfl, rfl, rfl, rfl, rfl⟩

/-- C6: on a freshly created GC (any half bases, any heap size), a request
of `heap_size + 1` bytes triggers one collection, still does not fit, and
fails with the "heap is full" `GcError`; no allocation is recorded. -/
theorem C6_heap_exhaustion (l r h : Nat) :
    ((Gc.new l r h false).allocate (h + 1)).2 =
      .error { ty := .gcError, message := "The heap is full" } ∧
    ((Gc.new l r h false).allocate (h + 1)).1.allocations = [] := by
  have hcol : (Gc.new l r h false).collect =
      { Gc.new l r h false with latest := r, current_side := .right } := by
    simp [Gc.collect, Gc.new, Gc.other_side, Side.not, markLoop_nil, copyLoop, unmarkLoop_nil]
  have h1 : (Gc.new l r h false).latest ≤ (Gc.new l r h false).get_side ∧
      (Gc.new l r h false).get_side + (Gc.new l r h false).heap_size <
        (Gc.new l r h false).latest + (h + 1) := by
    refine ⟨le_refl l, ?_⟩
    show l + h < l + (h + 1)
    omega
  have h2 : ((Gc.new l r h false).collect).latest ≤ ((Gc.new l r h false).collect).get_side ∧
      ((Gc.new l r h false).collect).get_side + ((Gc.new l r h false).collect).heap_size <
        ((Gc.new l r h false).collect).latest + (h + 1) := by
    rw [hcol]
    refine ⟨le_refl r, ?_⟩
    show r + h < r + (h + 1)
    omega
  have hall := allocate_full rfl h1 h2
  rw [hall, hcol]
  exact ⟨rfl, rfl⟩

/-- Concrete GC for the C4 counterexample and witnesses: root `0` (size 4,
at address 0) with children `1` (at 4) and `2` (at 8); halves at bases 0
and 100, heap size 100. -/
def gcC4 : Gc :=
  { roots := [0], left := 0, right := 100, latest := 12, current_side := .left,
    allocations := [(0, 0, ⟨0, 4, [1, 2], false⟩), (1, 4, ⟨1, 4, [], false⟩),
      (2, 8, ⟨2, 4, [], false⟩)],
    next_id := 3, heap_size := 100, burn_gc := false }

/-- What `gcC4.collect` evaluates to in the model. -/
def gcC4after : Gc :=
  { roots := [0], left := 0, right := 100, latest := 112, current_side := .right,
    allocations := [(0, 100, ⟨0, 4, [1, 2], false⟩), (2, 104, ⟨2, 4, [], false⟩),
      (1, 108, ⟨1, 4, [], false⟩)],
    next_id := 3, heap_size := 100, burn_gc := false }

theorem gcC4_collect : gcC4.collect = gcC4after :=
  collectF_eq (show collectF gcC4 10 = some gcC4after by decide)

/-- C4 counterexample: BFS discovery order would copy the survivors as
0, 1, 2 and place id 1 at `100 + 4 = 104`; the code's mark phase pops a
stack (so it discovers 0, 2, 1) and the copy loop follows the `keep` map's
iteration order, so id 1 is placed at 108 instead. -/
theorem C4_counterexample :
    (gcC4.collect).get_ptr 1 = .ok 108 ∧ ¬(gcC4.collect).get_ptr 1 = .ok 104 := by
  rw [gcC4_collect]
  decide

theorem copyLoop_lookup_split (pre post : AMap) (e : Nat × Nat × GcValue) (base : Nat)
    (hnd : (keysA (pre ++ e :: post)).Nodup) :
    lookupA (copyLoop (pre ++ e :: post) base).1 e.1 = some (base + sumSizes pre, e.2.2) := by
  induction pre generalizing base with
  | nil =>
    obtain ⟨k, p, v⟩ := e
    simp [copyLoop, lookupA, sumSizes]
  | cons e2 rest ih =>
    obtain ⟨k2, p2, v2⟩ := e2
    have hkey : e.1 ∈ keysA (rest ++ e :: post) := by
      simp [keysA]
    have hne : ¬k2 = e.1 := by
      intro hc
      have hnotin : k2 ∉ keysA (rest ++ e :: post) := by
        have := hnd
        simp only [List.cons_append, keysA, List.map_cons, List.nodup_cons] at this
        exact this.1
      exact hnotin (hc ▸ hkey)
    have hnd2 : (keysA (rest ++ e :: post)).Nodup := by
      have := hnd
      simp only [List.cons_append, keysA, List.map_cons, List.nodup_cons] at this
      exact this.2
    have hstep := ih (base + v2.size) hnd2
    simp only [List.cons_append, copyLoop, lookupA, if_neg hne, List.append_eq]
    rw [hstep]
    simp [sumSizes, Nat.add_assoc]

/-- C4 (amended): after one `collect()`, the survivors lie contiguously from
the base of the newly active side in the `keep` map's iteration order — in
this model its insertion order, which is the LIFO work-stack discovery
order of the mark phase (children pushed in order, popped in reverse), not
BFS — and `get_ptr` of a survivor equals that base plus the total size of
the survivors copied before it. -/
theorem C4_layout_stack_order (gc : Gc) (hw : WfIds gc.allocations)
    (pre post : AMap) (e : Nat × Nat × GcValue)
    (hsplit : (markLoop gc.allocations gc.roots.reverse []).2 = pre ++ e :: post) :
    (gc.collect).get_ptr e.1 = .ok (gc.other_side + sumSizes pre) := by
  have hnd : (keysA (markLoop gc.allocations gc.roots.reverse []).2).Nodup := by
    refine markLoop_keep_nodup _ _ _ hw List.nodup_nil ?_
    intro k hk
    simp [keysA] at hk
  rw [hsplit] at hnd
  have hcp := copyLoop_lookup_split pre post e gc.other_side hnd
  have hfst := unmarkLoop_lookup_fst
    (copyLoop (markLoop gc.allocations gc.roots.reverse []).2 gc.other_side).1
    gc.roots.reverse e.1
  rw [hsplit] at hfst
  rw [hcp] at hfst
  unfold Gc.get_ptr
  rw [collect_allocations, hsplit]
  rcases hl : lookupA
      (unmarkLoop (copyLoop (pre ++ e :: post) gc.other_side).1 gc.roots.reverse) e.1
    with _ | ⟨p2, v2⟩
  · rw [hl] at hfst
    cases hfst
  · rw [hl] at hfst
    have hp2 : p2 = gc.other_side + sumSizes pre := by simpa using hfst
    rw [hp2]

/-- Witness for the amended C4 at a concrete heap. -/
theorem C4_layout_stack_order_witness :
    (gcC4.collect).get_ptr 1 =
      .ok (gcC4.other_side +
        sumSizes [(0, 0, ⟨0, 4, [1, 2], true⟩), (2, 8, ⟨2, 4, [], true⟩)]) := by
  have hkeep : (markLoop gcC4.allocations gcC4.roots.reverse []).2 =
      [(0, 0, ⟨0, 4, [1, 2], true⟩), (2, 8, ⟨2, 4, [], true⟩)] ++
        (1, 4, ⟨1, 4, [], true⟩) :: [] := by
    have h10 := markLoopF_eq 10 gcC4.allocations gcC4.roots.reverse []
      ([(0, 0, ⟨0, 4, [1, 2], true⟩), (1, 4, ⟨1, 4, [], true⟩),
        (2, 8, ⟨2, 4, [], true⟩)],
       [(0, 0, ⟨0, 4, [1, 2], true⟩), (2, 8, ⟨2, 4, [], true⟩),
        (1, 4, ⟨1, 4, [], true⟩)]) (by decide)
    rw [h10]
    rfl
  exact C4_layout_stack_order gcC4 (WfIds_of_forall (by decide))
    [(0, 0, ⟨0, 4, [1, 2], true⟩), (2, 8, ⟨2, 4, [], true⟩)] []
    (1, 4, ⟨1, 4, [], true⟩) hkeep

/-- C5: if `a` is rooted and `b` is a child of `a` (both present in the
allocation map), a collection preserves both ids (`get_ptr` succeeds); if
`a` is then removed from the roots and no remaining root reaches either of
them, the next collection reclaims both (`get_ptr` fails). -/
theorem C5_reachability (gc : Gc) (a b pa pb : Nat) (va vb : GcValue)
    (hw : WfIds gc.allocations) (hum : AllUnmarked gc.allocations)
    (ha : a ∈ gc.roots) (hla : lookupA gc.allocations a = some (pa, va))
    (hb : b ∈ va.children) (hlb : lookupA gc.allocations b = some (pb, vb)) :
    (∃ p, (gc.collect).get_ptr a = .ok p) ∧
    (∃ p, (gc.collect).get_ptr b = .ok p) ∧
    (∀ g2 : Gc, g2 = ((gc.collect).remove_root a).1 →
      ¬ReachesList g2.allocations g2.roots a →
      ¬ReachesList g2.allocations g2.roots b →
      (g2.collect).get_ptr a =
        .error { ty := .gcError, message := "Requested value does not exist" } ∧
      (g2.collect).get_ptr b =
        .error { ty := .gcError, message := "Requested value does not exist" }) := by
  have hra : ReachesList gc.allocations gc.roots a := ⟨a, ha, Reaches.refl a pa va hla⟩
  have hrb : ReachesList gc.allocations gc.roots b :=
    ⟨a, ha, Reaches.step a pa va b b hla hb (Reaches.refl b pb vb hlb)⟩
  refine ⟨get_ptr_ok_of_isSome (collect_preserves hw hum hra),
          get_ptr_ok_of_isSome (collect_preserves hw hum hrb), ?_⟩
  intro g2 hg2 hna hnb
  have hw2 : WfIds g2.allocations := by
    rw [hg2]
    exact WfIds_remove_root WfIds_collect a
  exact ⟨get_ptr_error_of_none (collect_reclaims hw2 hna),
         get_ptr_error_of_none (collect_reclaims hw2 hnb)⟩

/-- Concrete GC for the C5 witness: root 0 with child 1. -/
def gcC5 : Gc :=
  { roots := [0], left := 0, right := 100, latest := 8, current_side := .left,
    allocations := [(0, 0, ⟨0, 4, [1], false⟩), (1, 4, ⟨1, 4, [], false⟩)],
    next_id := 2, heap_size := 100, burn_gc := false }

def gcC5after : Gc :=
  { roots := [0], left := 0, right := 100, latest := 108, current_side := .right,
    allocations := [(0, 100, ⟨0, 4, [1], false⟩), (1, 104, ⟨1, 4, [], false⟩)],
    next_id := 2, heap_size := 100, burn_gc := false }

theorem gcC5_collect : gcC5.collect = gcC5after :=
  collectF_eq (show collectF gcC5 10 = some gcC5after by decide)

/-- Witness for C5 at a concrete heap. -/
theorem C5_reachability_witness :
    (∃ p, (gcC5.collect).get_ptr 0 = .ok p) ∧
    (∃ p, (gcC5.collect).get_ptr 1 = .ok p) ∧
    ((((gcC5.collect).remove_root 0).1.collect).get_ptr 0 =
      .error { ty := .gcError, message := "Requested value does not exist" }) ∧
    ((((gcC5.collect).remove_root 0).1.collect).get_ptr 1 =
      .error { ty := .gcError, message := "Requested value does not exist" }) := by
  have hmain := C5_reachability gcC5 0 1 0 4 ⟨0, 4, [1], false⟩ ⟨1, 4, [], false⟩
    (WfIds_of_forall (by decide)) (AllUnmarked_of_forall (by decide))
    (by decide) (by decide) (by decide) (by decide)
  obtain ⟨h1, h2, h3⟩ := hmain
  have hroots : (((gcC5.collect).remove_root 0).1).roots = [] := by
    rw [gcC5_collect]
    decide
  have h34 := h3 (((gcC5.collect).remove_root 0).1) rfl
    (by rw [hroots]; exact reachesList_nil)
    (by rw [hroots]; exact reachesList_nil)
  exact ⟨h1, h2, h34.1, h34.2⟩

/-! ### Claim C7: `add_child` and `fetch_value_mut` -/

/-- The search of `fetch_value_mut` can find the target starting from `k`:
a path of child edges through live entries ending at an entry whose stored
`id` equals the target. -/
inductive FindsId (allocs : AMap) (target : Nat) : Nat → Prop
  | here (k p : Nat) (v : GcValue) (h : lookupA allocs k = some (p, v))
      (hid : v.id = target) : FindsId allocs target k
  | there (k p : Nat) (v : GcValue) (c : Nat) (h : lookupA allocs k = some (p, v))
      (hc : c ∈ v.children) (hf : FindsId allocs target c) : FindsId allocs target k

theorem fetchKeyLoop_sound : ∀ (fuel : Nat) (allocs : AMap) (queue : List Nat)
    (target k : Nat), fetchKeyLoop allocs queue target fuel = some (some k) →
    (∃ s ∈ queue, FindsId allocs target s) ∧
      ∃ p v, lookupA allocs k = some (p, v) ∧ v.id = target := by
  intro fuel
  induction fuel with
  | zero => intro allocs queue target k h; cases h
  | succ n ih =>
    intro allocs queue target k h
    match queue with
    | [] => cases (Option.some.inj h)
    | val :: rest =>
      rcases hl : lookupA allocs val with _ | ⟨p, root⟩
      · rw [fetchKeyLoop, hl] at h
        obtain ⟨⟨s, hs, hf⟩, hentry⟩ := ih _ _ _ _ h
        exact ⟨⟨s, List.mem_cons_of_mem _ hs, hf⟩, hentry⟩
      · by_cases hid : root.id = target
        · rw [fetchKeyLoop, hl] at h
          have h2 : (if root.id = target then some (some val)
              else fetchKeyLoop allocs (root.children.reverse ++ rest) target n) =
              some (some k) := h
          rw [if_pos hid] at h2
          have hk : val = k := Option.some.inj (Option.some.inj h2)
          subst hk
          exact ⟨⟨val, List.mem_cons_self _ _, FindsId.here val p root hl hid⟩,
                 p, root, hl, hid⟩
        · rw [fetchKeyLoop, hl] at h
          have h2 : (if root.id = target then some (some val)
              else fetchKeyLoop allocs (root.children.reverse ++ rest) target n) =
              some (some k) := h
          rw [if_neg hid] at h2
          obtain ⟨⟨s, hs, hf⟩, hentry⟩ := ih _ _ _ _ h2
          rcases List.mem_append.mp hs with hs1 | hs2
          · exact ⟨⟨val, List.mem_cons_self _ _,
              FindsId.there val p root s hl (List.mem_reverse.mp hs1) hf⟩, hentry⟩
          · exact ⟨⟨s, List.mem_cons_of_mem _ hs2, hf⟩, hentry⟩

theorem fetchKeyLoop_exhaust : ∀ (fuel : Nat) (allocs : AMap) (queue : List Nat)
    (target : Nat), fetchKeyLoop allocs queue target fuel = some none →
    ¬∃ s ∈ queue, FindsId allocs target s := by
  intro fuel
  induction fuel with
  | zero => intro allocs queue target h; cases h
  | succ n ih =>
    intro allocs queue target h
    match queue with
    | [] =>
      rintro ⟨s, hs, _⟩
      cases hs
    | val :: rest =>
      rcases hl : lookupA allocs val with _ | ⟨p, root⟩
      · rw [fetchKeyLoop, hl] at h
        rintro ⟨s, hs, hf⟩
        rcases List.mem_cons.mp hs with rfl | hs2
        · rcases hf with ⟨_, p2, v2, h2, _⟩ | ⟨_, p2, v2, c, h2, _, _⟩ <;>
            rw [hl] at h2 <;> cases h2
        · exact ih _ _ _ h ⟨s, hs2, hf⟩
      · by_cases hid : root.id = target
        · rw [fetchKeyLoop, hl] at h
          have h2 : (if root.id = target then some (some val)
              else fetchKeyLoop allocs (root.children.reverse ++ rest) target n) =
              some none := h
          rw [if_pos hid] at h2
          cases (Option.some.inj h2)
        · rw [fetchKeyLoop, hl] at h
          have h2 : (if root.id = target then some (some val)
              else fetchKeyLoop allocs (root.children.reverse ++ rest) target n) =
              some none := h
          rw [if_neg hid] at h2
          rintro ⟨s, hs, hf⟩
          rcases List.mem_cons.mp hs with rfl | hs2
          · rcases hf with ⟨_, p2, v2, h3, hid2⟩ | ⟨_, p2, v2, c, h3, hc, hf2⟩
            · rw [hl] at h3
              rw [show v2 = root from (congrArg Prod.snd (Option.some.inj h3)).symm] at hid2
              exact hid hid2
            · rw [hl] at h3
              have hvc : v2 = root := (congrArg Prod.snd (Option.some.inj h3)).symm
              rw [hvc] at hc
              exact ih _ _ _ h2
                ⟨c, List.mem_append_left _ (List.mem_reverse.mpr hc), hf2⟩
          · exact ih _ _ _ h2 ⟨s, List.mem_append_right _ hs2, hf⟩

/-- Concrete GC for the C7 counterexample: allocation 0 exists in the map
but is not reachable from the (empty) root set. -/
def gcC7 : Gc :=
  { roots := [], left := 0, right := 100, latest := 4, current_side := .left,
    allocations := [(0, 0, ⟨0, 4, [], false⟩)], next_id := 1, heap_size := 100,
    burn_gc := false }

/-- C7 counterexample: the parent allocation `0` exists in the allocation
map, yet `add_child(0, 1)` fails, because `fetch_value_mut` searches from
the roots rather than looking the parent up in the map. -/
theorem C7_counterexample :
    (lookupA gcC7.allocations 0).isSome = true ∧
    gcC7.add_child 0 1 5 =
      some (gcC7, .error { ty := .gcError, message := "Requested value does not exist" }) := by
  decide

/-- C7 (amended): a terminating `add_child(parent, child)` call succeeds
exactly when an allocation whose stored id equals `parent` is reachable
from the roots along child edges; on success it appends `child` — never
validated — to that allocation's children list, and on failure it changes
nothing. -/
theorem C7_add_child_reachable_parent (gc : Gc) (parent child fuel : Nat)
    (g2 : Gc) (r : Except RuntimeError Unit)
    (h : gc.add_child parent child fuel = some (g2, r)) :
    (r = .ok () ↔ ∃ s ∈ gc.roots, FindsId gc.allocations parent s) ∧
    (r = .ok () → ∃ k p v, lookupA gc.allocations k = some (p, v) ∧ v.id = parent ∧
      g2 = { gc with allocations := insertA gc.allocations k (p, { v with children := v.children ++ [child] }) }) ∧
    (∀ e, r = .error e → g2 = gc ∧
      e = { ty := .gcError, message := "Requested value does not exist" }) := by
  unfold Gc.add_child at h
  rcases hf : fetchKeyLoop gc.allocations gc.roots.reverse parent fuel with _ | ro
  · rw [hf] at h
    cases h
  · rcases ro with _ | k
    · rw [hf] at h
      have hg : g2 = gc ∧ r = .error { ty := .gcError, message := "Requested value does not exist" } := by
        have h2 := Option.some.inj h
        exact ⟨(congrArg Prod.fst h2).symm, (congrArg Prod.snd h2).symm⟩
      obtain ⟨hg2, hr⟩ := hg
      have hnone := fetchKeyLoop_exhaust _ _ _ _ hf
      refine ⟨?_, ?_, ?_⟩
      · constructor
        · intro hok
          rw [hr] at hok
          cases hok
        · rintro ⟨s, hs, hfi⟩
          exact absurd ⟨s, List.mem_reverse.mpr hs, hfi⟩ hnone
      · intro hok
        rw [hr] at hok
        cases hok
      · intro e he
        rw [hr] at he
        exact ⟨hg2, (Except.error.inj he).symm⟩
    · rw [hf] at h
      obtain ⟨⟨s, hs, hfi⟩, p, v, hl, hid⟩ := fetchKeyLoop_sound _ _ _ _ _ hf
      have hx : (match lookupA gc.allocations k with
          | none => some (gc, (Except.error { ty := RuntimeErrorTy.gcError, message := "Requested value does not exist" } : Except RuntimeError Unit))
          | some (p, v) => some ({ gc with allocations := insertA gc.allocations k (p, { v with children := v.children ++ [child] }) }, (Except.ok () : Except RuntimeError Unit))) = some (g2, r) := h
      rw [hl] at hx
      have h2 := Option.some.inj hx
      have hg2 : g2 = { gc with allocations := insertA gc.allocations k (p, { v with children := v.children ++ [child] }) } :=
        (congrArg Prod.fst h2).symm
      have hr : r = .ok () := (congrArg Prod.snd h2).symm
      refine ⟨?_, ?_, ?_⟩
      · constructor
        · intro _
          exact ⟨s, List.mem_reverse.mp hs, hfi⟩
        · intro _
          exact hr
      · intro _
        exact ⟨k, p, v, hl, hid, hg2⟩
      · intro e he
        rw [hr] at he
        cases he

/-- Concrete state for the C7 witness: allocation 0 rooted, so the search
finds it. -/
def gcC7b : Gc :=
  { roots := [0], left := 0, right := 100, latest := 4, current_side := .left,
    allocations := [(0, 0, ⟨0, 4, [], false⟩)], next_id := 1, heap_size := 100,
    burn_gc := false }

def gcC7b2 : Gc :=
  { gcC7b with allocations := [(0, 0, ⟨0, 4, [7], false⟩)] }

/-- Witness for the amended C7: a successful terminating run. -/
theorem C7_add_child_reachable_parent_witness :
    ((.ok () : Except RuntimeError Unit) = .ok () ↔
      ∃ s ∈ gcC7b.roots, FindsId gcC7b.allocations 0 s) ∧
    ((.ok () : Except RuntimeError Unit) = .ok () →
      ∃ k p v, lookupA gcC7b.allocations k = some (p, v) ∧ v.id = 0 ∧
        gcC7b2 = { gcC7b with allocations := insertA gcC7b.allocations k (p, { v with children := v.children ++ [7] }) }) ∧
    (∀ e, (.ok () : Except RuntimeError Unit) = .error e → gcC7b2 = gcC7b ∧
      e = { ty := .gcError, message := "Requested value does not exist" }) :=
  C7_add_child_reachable_parent gcC7b 0 7 5 gcC7b2 (.ok ()) (by decide)

/-! ## Type inference engine (src/crates/crunch-typecheck/src/lib.rs)

`TypeId` is a plain `usize`; locations are opaque (`Nat`).  The engine's
two hash maps are association lists as before.  The statement and
expression forms embedded here are the ones the claims traverse
(`VarDecl`, literals, variable references, comparisons); the remaining
`ExprKind` variants either dispatch to `todo!()` in the source or do not
occur in the claims. -/

inductive TypeInfo
  | ref (id : Nat)
  | infer
  | integer
  | str
  | bool
  | unit
deriving Repr, DecidableEq

/-- `TypeKind` as consumed by the typechecker (`From<&TypeKind> for
TypeInfo` matches exactly these five variants). -/
inductive TypeKind
  | infer
  | integer
  | str
  | bool
  | unit
deriving Repr, DecidableEq

/-- HIR `Var`. -/
inductive Var
  | user (s : Nat)
  | auto (n : Nat)
deriving Repr, DecidableEq

/-- `TypeError`, with interned names in place of formatted strings: the
reverse name lookup (`ids.iter().find_map(..)`) yields the `Var` bound to
the id, or `none` for `<anonymous type>`; the conflict message is carried
as the pair of offending `TypeInfo`s. -/
inductive TypeError
  | varNotInScope (name : Var)
  | failedInfer (name : Option Var)
  | typeConflict (a b : Option Var) (aty bty : TypeInfo) (locs : List Nat)
deriving Repr, DecidableEq

/-- A `Locatable<TypeError>`. -/
abbrev TErrL := TypeError × Nat

abbrev TMap := List (Nat × TypeInfo × Nat)

def lookupT : TMap → Nat → Option (TypeInfo × Nat)
  | [], _ => none
  | (k2, il) :: rest, k => if k2 = k then some il else lookupT rest k

def insertT : TMap → Nat → TypeInfo × Nat → TMap
  | [], k, il => [(k, il)]
  | (k2, il2) :: rest, k, il =>
    if k2 = k then (k2, il) :: rest else (k2, il2) :: insertT rest k il

def lookupVar : List (Var × Nat) → Var → Option Nat
  | [], _ => none
  | (v2, id) :: rest, v => if v2 = v then some id else lookupVar rest v

/-- Reverse lookup of a `TypeId`'s name in the `Var → TypeId` map. -/
def revName : List (Var × Nat) → Nat → Option Var
  | [], _ => none
  | (v, i) :: rest, id => if i = id then some v else revName rest id

structure Engine where
  id_counter : Nat
  types : TMap
  ids : List (Var × Nat)
  errors : List TErrL
deriving Repr, DecidableEq

def Engine.new : Engine := { id_counter := 0, types := [], ids := [], errors := [] }

def TypeInfo.fromKind : TypeKind → TypeInfo
  | .infer => .infer
  | .integer => .integer
  | .str => .str
  | .bool => .bool
  | .unit => .unit

/-- `Engine::insert`: rebind an existing id or mint a fresh one. -/
def Engine.insert (e : Engine) (v : Var) (kind : TypeKind) (loc : Nat) : Engine × Nat :=
  match lookupVar e.ids v with
  | some id => ({ e with types := insertT e.types id (TypeInfo.fromKind kind, loc) }, id)
  | none =>
    let id := e.id_counter
    ({ e with
        id_counter := id + 1
        types := insertT e.types id (TypeInfo.fromKind kind, loc)
        ids := e.ids ++ [(v, id)] }, id)

/-- `Engine::insert_bare`. -/
def Engine.insert_bare (e : Engine) (info : TypeInfo) (loc : Nat) : Engine × Nat :=
  let id := e.id_counter
  ({ e with id_counter := id + 1, types := insertT e.types id (info, loc) }, id)

/-- `Engine::get`; the error location is the implicit `Span::new(0, 0)`,
modelled as location `0`. -/
def Engine.get (e : Engine) (v : Var) : Except TErrL Nat :=
  match lookupVar e.ids v with
  | some id => .ok id
  | none => .error (.varNotInScope v, 0)

/-- `Engine::unify`, with fuel; `none` models a non-returning run (the
source recursion is unbounded) or an index panic on a missing id.

The source's second `Ref` arm is `(_, (TypeInfo::Ref(a), _)) =>
self.unify(a, b)`: the pattern binding `a` *shadows* the function
parameter, so the call passes the ref target of `b` as the first argument
and leaves `b` unchanged — it does not descend `b`'s chain.  The model
reproduces this (`unifyF .. b2 b ..` below). -/
def unifyF (types : TMap) (ids : List (Var × Nat)) : Nat → Nat → Nat → Option (Except TErrL TMap)
  | _, _, 0 => none
  | a, b, fuel + 1 =>
    match lookupT types a with
    | none => none
    | some (ia, la) =>
      match lookupT types b with
      | none => none
      | some (ib, lb) =>
        match ia with
        | .ref a2 => unifyF types ids a2 b fuel
        | _ =>
          match ib with
          | .ref b2 => unifyF types ids b2 b fuel
          | _ =>
            match ia, ib with
            | .infer, _ => some (.ok (insertT types a (.ref b, la)))
            | _, .infer => some (.ok (insertT types b (.ref a, lb)))
            | .integer, .integer => some (.ok types)
            | .str, .str => some (.ok types)
            | .bool, .bool => some (.ok types)
            | .unit, .unit => some (.ok types)
            | _, _ =>
              some (.error (.typeConflict (revName ids a) (revName ids b) ia ib [la, lb], lb))

/-- `Engine::reconstruct`, with fuel. -/
def reconstructF (types : TMap) (ids : List (Var × Nat)) : Nat → Nat → Option (Except TErrL TypeKind)
  | _, 0 => none
  | id, fuel + 1 =>
    match lookupT types id with
    | none => none
    | some (info, loc) =>
      match info with
      | .infer => some (.error (.failedInfer (revName ids id), loc))
      | .ref id2 => reconstructF types ids id2 fuel
      | .integer => some (.ok .integer)
      | .bool => some (.ok .bool)
      | .unit => some (.ok .unit)
      | .str => some (.ok .str)

/-- `Engine::type_of`. -/
def Engine.type_of (e : Engine) (v : Var) (fuel : Nat) : Option (Except TErrL TypeKind) :=
  match lookupVar e.ids v with
  | some id => reconstructF e.types e.ids id fuel
  | none => some (.error (.varNotInScope v, 0))

/-- The types the claims build: with all chains acyclic, `[(0, Integer),
(1, Ref 2), (2, Integer)]` is a well-formed engine state. -/
def c2types : TMap := [(0, .integer, 0), (1, .ref 2, 0), (2, .integer, 0)]

/-- C2 is a code bug: on `types = {0 ↦ Integer, 1 ↦ Ref 2, 2 ↦ Integer}` —
both ids present and every `Ref` chain acyclic — `unify(0, 1)` never
returns: the mirrored-`Ref` arm's pattern binding shadows the parameter
(`(_, (Ref(a), _)) => self.unify(a, b)`), so the recursion becomes
`unify(2, 1)`, `unify(2, 1)`, … and never reduces `b`'s chain.
`reconstruct` does terminate on the same ids. -/
theorem C2_unify_diverges_on_acyclic_refs :
    (∀ fuel, unifyF c2types [] 0 1 fuel = none) ∧
    (reconstructF c2types [] 0 2 = some (.ok .integer) ∧
     reconstructF c2types [] 1 2 = some (.ok .integer) ∧
     reconstructF c2types [] 2 2 = some (.ok .integer)) := by
  have key : ∀ f, unifyF c2types [] 2 1 f = none := by
    intro f
    induction f with
    | zero => rfl
    | succ n ih =>
      show unifyF c2types [] 2 1 (n + 1) = none
      rw [show unifyF c2types [] 2 1 (n + 1) = unifyF c2types [] 2 1 n from rfl]
      exact ih
  refine ⟨?_, by decide, by decide, by decide⟩
  intro fuel
  match fuel with
  | 0 => rfl
  | n + 1 =>
    rw [show unifyF c2types [] 0 1 (n + 1) = unifyF c2types [] 2 1 n from rfl]
    exact key n

/-- HIR literals as typed by `From<&Literal> for TypeInfo`. -/
inductive HLiteral
  | integer (n : Int)
  | bool (b : Bool)
  | str (s : Nat)
deriving Repr, DecidableEq

/-- HIR comparison operators (the typechecker ignores which one). -/
inductive CompOp
  | eq
  | neq
  | less
  | greater
deriving Repr, DecidableEq

/-- The HIR expression forms the claims traverse.  `Expr { kind, loc }` is
flattened: each constructor carries the node's location. -/
inductive HExpr
  | literal (lit : HLiteral) (loc : Nat)
  | varRef (v : Var) (kind : TypeKind) (loc : Nat)
  | comparison (lhs : HExpr) (op : CompOp) (rhs : HExpr) (loc : Nat)
deriving Repr, DecidableEq

structure HType where
  kind : TypeKind
  loc : Nat
deriving Repr, DecidableEq

structure HVarDecl where
  name : Var
  value : HExpr
  ty : HType
  loc : Nat
deriving Repr, DecidableEq

inductive HStmt
  | varDecl (d : HVarDecl)
  | expr (e : HExpr)
deriving Repr, DecidableEq

def TypeInfo.fromLit : HLiteral → TypeInfo
  | .integer _ => .integer
  | .bool _ => .bool
  | .str _ => .str

/-- `ExprVisitor` for the embedded fragment (`visit_literal`,
`visit_variable`, `visit_comparison`).  The fuel is handed to each
internal `unify` call; `none` propagates a non-returning `unify`. -/
def visitExpr (fuel : Nat) : Engine → HExpr → Engine × Option (Except TErrL Nat)
  | e, .literal lit loc =>
    let r := e.insert_bare (TypeInfo.fromLit lit) loc
    (r.1, some (.ok r.2))
  | e, .varRef v _kind _loc =>
    match e.get v with
    | .ok id => (e, some (.ok id))
    | .error err => (e, some (.error err))
  | e, .comparison lhs _op rhs loc =>
    match visitExpr fuel e lhs with
    | (e1, some (.ok left)) =>
      match visitExpr fuel e1 rhs with
      | (e2, some (.ok right)) =>
        match unifyF e2.types e2.ids left right fuel with
        | none => (e2, none)
        | some (.error err) => (e2, some (.error err))
        | some (.ok types2) =>
          let e3 : Engine := { e2 with types := types2 }
          let r := e3.insert_bare .bool loc
          (r.1, some (.ok r.2))
      | (e2, some (.error err)) => (e2, some (.error err))
      | (e2, none) => (e2, none)
    | (e1, some (.error err)) => (e1, some (.error err))
    | (e1, none) => (e1, none)

/-- `visit_var_decl`: bind the name, type the initializer, unify,
reconstruct back into the declared type, return a fresh `Unit` id together
with the updated declaration. -/
def visitVarDecl (fuel : Nat) (e : Engine) (d : HVarDecl) :
    Engine × Option (Except TErrL (Nat × HVarDecl)) :=
  let r1 := e.insert d.name d.ty.kind d.loc
  match visitExpr fuel r1.1 d.value with
  | (e1, some (.ok expr)) =>
    match unifyF e1.types e1.ids r1.2 expr fuel with
    | none => (e1, none)
    | some (.error err) => (e1, some (.error err))
    | some (.ok types2) =>
      let e2 : Engine := { e1 with types := types2 }
      match reconstructF e2.types e2.ids r1.2 fuel with
      | none => (e2, none)
      | some (.error err) => (e2, some (.error err))
      | some (.ok kind) =>
        let r2 := e2.insert_bare .unit d.loc
        (r2.1, some (.ok (r2.2, { d with ty := { d.ty with kind := kind } })))
  | (e1, some (.error err)) => (e1, some (.error err))
  | (e1, none) => (e1, none)

/-- `visit_stmt` on the embedded statement forms. -/
def visitStmt (fuel : Nat) (e : Engine) : HStmt → Engine × Option (Except TErrL Nat)
  | .varDecl d =>
    let r := visitVarDecl fuel e d
    (r.1, r.2.map (fun x => x.map (fun y => y.1)))
  | .expr ex => visitExpr fuel e ex

/-- `let x := 1` (declared type `Infer`). -/
def c9decl : HVarDecl :=
  { name := .user 0, value := .literal (.integer 1) 2, ty := { kind := .infer, loc := 1 },
    loc := 1 }

/-- `x == 2`. -/
def c9cmp : HExpr :=
  .comparison (.varRef (.user 0) .infer 3) .eq (.literal (.integer 2) 4) 5

/-- C9: typing `let x := 1` then `x == 2` succeeds with no diagnostics;
`type_of(x)` reconstructs to `Integer` and the comparison's type id
reconstructs to `Bool`. -/
theorem C9_let_then_compare :
    (visitStmt 100 Engine.new (.varDecl c9decl)).2 = some (.ok 2) ∧
    (visitExpr 100 (visitStmt 100 Engine.new (.varDecl c9decl)).1 c9cmp).2 =
      some (.ok 4) ∧
    ((visitExpr 100 (visitStmt 100 Engine.new (.varDecl c9decl)).1 c9cmp).1).type_of
        (.user 0) 100 = some (.ok .integer) ∧
    reconstructF
        ((visitExpr 100 (visitStmt 100 Engine.new (.varDecl c9decl)).1 c9cmp).1).types
        ((visitExpr 100 (visitStmt 100 Engine.new (.varDecl c9decl)).1 c9cmp).1).ids
        4 100 = some (.ok .bool) ∧
    ((visitExpr 100 (visitStmt 100 Engine.new (.varDecl c9decl)).1 c9cmp).1).errors = [] := by
  decide

/-! ## Name resolution (src/crates/crunch-shared/src/symbol_table.rs)

Interned strings (`StrT`) are `Nat`.  `current_path` is never consulted by
the finalize pass and is omitted.  In the source, `finalize` resolves every
still-unresolved reference with `lookup_type(..).unwrap()`: an unresolved
name is an `unwrap` of `None`, i.e. a panic.  The model returns `Option`:
`none` is a run that panics. -/

inductive REither
  | left (id : Nat)
  | right (name : Nat) (module : Nat)
deriving Repr, DecidableEq

def REither.isRight : REither → Bool
  | .left _ => false
  | .right _ _ => true

inductive RExport
  | func (id : Nat)
  | ty (id : Nat)
  | mod (id : Nat)
deriving Repr, DecidableEq

inductive RType
  | bool
  | str
  | rune
  | unit
  | absurd
  | infer
  | custom (name : Nat) (members : List (Nat × REither)) (methods : List (Nat × Nat))
      (parent : Nat)
deriving Repr, DecidableEq

structure RModule where
  name : Nat
  parent : Option Nat
  imports : List Nat
  exports : List RExport
  functions : List Nat
  types : List Nat
  modules : List Nat
deriving Repr, DecidableEq

structure RFunction where
  name : Nat
  args : List (Nat × REither)
  ret : REither
  parent : Nat
deriving Repr, DecidableEq

structure Resolver where
  modules : List RModule
  types : List RType
  functions : List RFunction
  current_module : Nat
deriving Repr, DecidableEq

/-- The body of the `find_map` in `Module::lookup_type`: does `types[id]`
hold a custom type with this name?  Rust indexes `resolver.types[id]`,
which panics out of bounds; the model yields no match there (the
difference is visible only on states the source would crash on). -/
def tyNamed (r : Resolver) (id : Nat) (ty_name : Nat) : Option Nat :=
  match r.types.get? id with
  | some (RType.custom name _ _ _) => if name = ty_name then some id else none
  | _ => none

/-- `Module::lookup_exported_type`. -/
def lookup_exported_type (m : RModule) (r : Resolver) (ty_name : Nat) : Option Nat :=
  m.exports.findSome? (fun exp =>
    match exp with
    | .ty id => tyNamed r id ty_name
    | _ => none)

/-- `Module::lookup_type`: own custom types first, then the exports of each
import, first hit wins. -/
def lookup_type (m : RModule) (r : Resolver) (ty_name : Nat) : Option Nat :=
  (m.types.findSome? (fun id => tyNamed r id ty_name)).orElse (fun _ =>
    m.imports.findSome? (fun id =>
      match r.modules.get? id with
      | some m2 => lookup_exported_type m2 r ty_name
      | none => none))

/-- Resolve one pending reference the way `finalize` does:
`self.modules[module].lookup_type(&hacky, name)` followed by `unwrap()`.
`hacky` is the snapshot clone the source takes; the `modules` list is
never mutated by the pass, so reading it from the snapshot is equivalent.
`none` models the panic (unresolved name or module index out of bounds). -/
def resolveEither (hacky : Resolver) : REither → Option REither
  | .left id => some (.left id)
  | .right name module =>
    match hacky.modules.get? module with
    | none => none
    | some m => (lookup_type m hacky name).map .left

def optionMapM {α β : Type} (f : α → Option β) : List α → Option (List β)
  | [] => some []
  | x :: rest =>
    match f x with
    | none => none
    | some y => (optionMapM f rest).map (fun ys => y :: ys)

def resolveMember (hacky : Resolver) (me : Nat × REither) : Option (Nat × REither) :=
  (resolveEither hacky me.2).map (fun e2 => (me.1, e2))

def resolveType (hacky : Resolver) : RType → Option RType
  | .custom name members methods parent =>
    (optionMapM (resolveMember hacky) members).map
      (fun ms => .custom name ms methods parent)
  | t => some t

def resolveFunction (hacky : Resolver) (f : RFunction) : Option RFunction :=
  match optionMapM (resolveMember hacky) f.args with
  | none => none
  | some args2 =>
    (resolveEither hacky f.ret).map (fun r2 => { f with args := args2, ret := r2 })

/-- `Resolver::finalize`: patch every pending reference in custom-type
members, then in function argument types and return types, against the
snapshot; `none` is the `unwrap` panic at any unresolved reference. -/
def Resolver.finalize (r : Resolver) : Option Resolver :=
  match optionMapM (resolveType r) r.types with
  | none => none
  | some types2 =>
    (optionMapM (resolveFunction r) r.functions).map
      (fun fns => { r with types := types2, functions := fns })

/-- A concrete resolver with a single pending reference that no lookup
resolves: one empty module and a function whose return type is the
unresolved name `7` in module `0`. -/
def rEx : Resolver :=
  { modules := [{ name := 0, parent := none, imports := [], exports := [], functions := [0], types := [], modules := [] }]
    types := [.bool, .str, .rune, .unit, .absurd, .infer]
    functions := [{ name := 1, args := [], ret := .right 7 0, parent := 0 }]
    current_module := 0 }

/-- C3 counterexample: with an unresolved reference left after the walk,
`finalize` does not emit any diagnostic and does not continue — it panics
(`unwrap` of `None`, `none` in the model).  No `NameNotFound` diagnostic
exists anywhere in the source. -/
theorem C3_counterexample : rEx.finalize = none := by decide

/-- Every pending reference of the resolver resolves under the snapshot. -/
def PendingResolvable (r : Resolver) : Prop :=
  (∀ t ∈ r.types, ∀ nm ms mt pm, t = RType.custom nm ms mt pm →
    ∀ me ∈ ms, (resolveEither r me.2).isSome = true) ∧
  (∀ f ∈ r.functions, (∀ ae ∈ f.args, (resolveEither r ae.2).isSome = true) ∧
    (resolveEither r f.ret).isSome = true)

/-- No `Right` marker left anywhere. -/
def AllResolved (r : Resolver) : Prop :=
  (∀ t ∈ r.types, ∀ nm ms mt pm, t = RType.custom nm ms mt pm →
    ∀ me ∈ ms, REither.isRight me.2 = false) ∧
  (∀ f ∈ r.functions, (∀ ae ∈ f.args, REither.isRight ae.2 = false) ∧
    REither.isRight f.ret = false)

theorem optionMapM_isSome_iff {α β : Type} (f : α → Option β) (l : List α) :
    (optionMapM f l).isSome = true ↔ ∀ x ∈ l, (f x).isSome = true := by
  induction l with
  | nil => simp [optionMapM]
  | cons x rest ih =>
    rcases hx : f x with _ | y
    · simp [optionMapM, hx]
    · simp [optionMapM, hx, ih]

theorem optionMapM_mem {α β : Type} {f : α → Option β} {l : List α} {l2 : List β}
    (h : optionMapM f l = some l2) : ∀ y ∈ l2, ∃ x ∈ l, f x = some y := by
  induction l generalizing l2 with
  | nil =>
    simp only [optionMapM, Option.some.injEq] at h
    subst h
    intro y hy
    cases hy
  | cons x rest ih =>
    rcases hx : f x with _ | y0
    · rw [optionMapM, hx] at h
      cases h
    · rw [optionMapM, hx] at h
      rcases hr : optionMapM f rest with _ | ys
      · rw [hr] at h
        cases h
      · rw [hr] at h
        have hl2 : y0 :: ys = l2 := by simpa using h
        intro y hy
        rw [← hl2] at hy
        rcases List.mem_cons.mp hy with rfl | hy2
        · exact ⟨x, List.mem_cons_self _ _, hx⟩
        · obtain ⟨x2, hx2, hfx2⟩ := ih hr y hy2
          exact ⟨x2, List.mem_cons_of_mem _ hx2, hfx2⟩

theorem resolveEither_isLeft {r : Resolver} {e e2 : REither}
    (h : resolveEither r e = some e2) : REither.isRight e2 = false := by
  cases e with
  | left id =>
    have h2 : REither.left id = e2 := by simpa [resolveEither] using h
    rw [← h2]
    rfl
  | right n m =>
    rcases hm : r.modules.get? m with _ | mo
    · rw [resolveEither, hm] at h
      cases h
    · rw [resolveEither, hm] at h
      have h2 : Option.map REither.left (lookup_type mo r n) = some e2 := h
      rcases hl : lookup_type mo r n with _ | id
      · rw [hl] at h2
        cases h2
      · rw [hl] at h2
        have h3 : REither.left id = e2 := by simpa using h2
        rw [← h3]
        rfl

theorem resolveMember_isSome (r : Resolver) (me : Nat × REither) :
    (resolveMember r me).isSome = (resolveEither r me.2).isSome := by
  rcases h : resolveEither r me.2 with _ | e2 <;> simp [resolveMember, h]

theorem resolveMember_shape {r : Resolver} {me me2 : Nat × REither}
    (h : resolveMember r me = some me2) : REither.isRight me2.2 = false := by
  rcases he : resolveEither r me.2 with _ | e2
  · rw [resolveMember, he] at h
    cases h
  · rw [resolveMember, he] at h
    have h2 : (me.1, e2) = me2 := by simpa using h
    rw [← h2]
    exact resolveEither_isLeft he

theorem resolveType_isSome_iff (r : Resolver) (t : RType) :
    (resolveType r t).isSome = true ↔
      ∀ nm ms mt pm, t = RType.custom nm ms mt pm →
        ∀ me ∈ ms, (resolveEither r me.2).isSome = true := by
  cases t with
  | custom nm ms mt pm =>
    constructor
    · intro h nm2 ms2 mt2 pm2 heq me hme
      have hms : ms = ms2 := by
        injection heq
      subst hms
      rcases hmm : optionMapM (resolveMember r) ms with _ | ms3
      · rw [show resolveType r (RType.custom nm ms mt pm) =
            (optionMapM (resolveMember r) ms).map
              (fun ms4 => RType.custom nm ms4 mt pm) from rfl, hmm] at h
        cases h
      · have := (optionMapM_isSome_iff (resolveMember r) ms).mp (by rw [hmm]; rfl) me hme
        rwa [resolveMember_isSome] at this
    · intro h
      have hall : ∀ me ∈ ms, (resolveMember r me).isSome = true := by
        intro me hme
        rw [resolveMember_isSome]
        exact h nm ms mt pm rfl me hme
      have := (optionMapM_isSome_iff (resolveMember r) ms).mpr hall
      rcases hmm : optionMapM (resolveMember r) ms with _ | ms3
      · rw [hmm] at this
        cases this
      · rw [show resolveType r (RType.custom nm ms mt pm) =
            (optionMapM (resolveMember r) ms).map
              (fun ms4 => RType.custom nm ms4 mt pm) from rfl, hmm]
        rfl
  | bool => simp [resolveType]
  | str => simp [resolveType]
  | rune => simp [resolveType]
  | unit => simp [resolveType]
  | absurd => simp [resolveType]
  | infer => simp [resolveType]

theorem resolveFunction_isSome_iff (r : Resolver) (f : RFunction) :
    (resolveFunction r f).isSome = true ↔
      (∀ ae ∈ f.args, (resolveEither r ae.2).isSome = true) ∧
        (resolveEither r f.ret).isSome = true := by
  rcases hmm : optionMapM (resolveMember r) f.args with _ | args2
  · have hargs : ¬∀ ae ∈ f.args, (resolveEither r ae.2).isSome = true := by
      intro hall
      have : (optionMapM (resolveMember r) f.args).isSome = true :=
        (optionMapM_isSome_iff _ _).mpr
          (fun ae hae => by rw [resolveMember_isSome]; exact hall ae hae)
      rw [hmm] at this
      cases this
    have hL : resolveFunction r f = none := by rw [resolveFunction, hmm]
    rw [hL]
    constructor
    · intro hc
      simp at hc
    · rintro ⟨hall, _⟩
      exact absurd hall hargs
  · have hargs : ∀ ae ∈ f.args, (resolveEither r ae.2).isSome = true := by
      intro ae hae
      have := (optionMapM_isSome_iff (resolveMember r) f.args).mp (by rw [hmm]; rfl) ae hae
      rwa [resolveMember_isSome] at this
    have hL : resolveFunction r f =
        (resolveEither r f.ret).map (fun r2 => { f with args := args2, ret := r2 }) := by
      rw [resolveFunction, hmm]
    rw [hL]
    rcases hr : resolveEither r f.ret with _ | r2
    · constructor
      · intro hc
        simp at hc
      · rintro ⟨_, hret⟩
        simp at hret
    · constructor
      · intro _
        exact ⟨hargs, rfl⟩
      · intro _
        rfl

theorem resolveType_shape {r : Resolver} {t t2 : RType} (h : resolveType r t = some t2) :
    ∀ nm ms mt pm, t2 = RType.custom nm ms mt pm →
      ∀ me ∈ ms, REither.isRight me.2 = false := by
  cases t with
  | custom nm0 ms0 mt0 pm0 =>
    rcases hmm : optionMapM (resolveMember r) ms0 with _ | ms1
    · rw [show resolveType r (RType.custom nm0 ms0 mt0 pm0) =
          (optionMapM (resolveMember r) ms0).map
            (fun ms4 => RType.custom nm0 ms4 mt0 pm0) from rfl, hmm] at h
      cases h
    · rw [show resolveType r (RType.custom nm0 ms0 mt0 pm0) =
          (optionMapM (resolveMember r) ms0).map
            (fun ms4 => RType.custom nm0 ms4 mt0 pm0) from rfl, hmm] at h
      have h2 : RType.custom nm0 ms1 mt0 pm0 = t2 := by simpa using h
      intro nm ms mt pm heq me hme
      rw [← h2] at heq
      have hms : ms1 = ms := by injection heq
      subst hms
      obtain ⟨me0, _, hme0⟩ := optionMapM_mem hmm me hme
      exact resolveMember_shape hme0
  | bool =>
    have h2 : RType.bool = t2 := by simpa [resolveType] using h
    intro nm ms mt pm heq
    rw [← h2] at heq
    cases heq
  | str =>
    have h2 : RType.str = t2 := by simpa [resolveType] using h
    intro nm ms mt pm heq
    rw [← h2] at heq
    cases heq
  | rune =>
    have h2 : RType.rune = t2 := by simpa [resolveType] using h
    intro nm ms mt pm heq
    rw [← h2] at heq
    cases heq
  | unit =>
    have h2 : RType.unit = t2 := by simpa [resolveType] using h
    intro nm ms mt pm heq
    rw [← h2] at heq
    cases heq
  | absurd =>
    have h2 : RType.absurd = t2 := by simpa [resolveType] using h
    intro nm ms mt pm heq
    rw [← h2] at heq
    cases heq
  | infer =>
    have h2 : RType.infer = t2 := by simpa [resolveType] using h
    intro nm ms mt pm heq
    rw [← h2] at heq
    cases heq

theorem resolveFunction_shape {r : Resolver} {f f2 : RFunction}
    (h : resolveFunction r f = some f2) :
    (∀ ae ∈ f2.args, REither.isRight ae.2 = false) ∧ REither.isRight f2.ret = false := by
  rcases hmm : optionMapM (resolveMember r) f.args with _ | args2
  · rw [resolveFunction, hmm] at h
    cases h
  · rw [resolveFunction, hmm] at h
    have hx : (resolveEither r f.ret).map (fun r2 => { f with args := args2, ret := r2 }) =
        some f2 := h
    rcases hr : resolveEither r f.ret with _ | r2
    · rw [hr] at hx
      cases hx
    · rw [hr] at hx
      have h2 : ({ f with args := args2, ret := r2 } : RFunction) = f2 := by simpa using hx
      rw [← h2]
      constructor
      · intro ae hae
        obtain ⟨ae0, _, hae0⟩ := optionMapM_mem hmm ae hae
        exact resolveMember_shape hae0
      · exact resolveEither_isLeft hr

/-- C3 (amended): the finalize pass emits no diagnostic.  It returns
normally iff every still-pending reference resolves (through the module's
own types, then each import's exports); otherwise it panics on the first
unresolved reference (`unwrap` of `None`, `none` in the model).  On a
normal return every `Right` pending marker has been replaced by a resolved
`Left` id. -/
theorem C3_finalize_panics_on_unresolved (r : Resolver) :
    ((r.finalize).isSome = true ↔ PendingResolvable r) ∧
    (∀ r2, r.finalize = some r2 → AllResolved r2) := by
  constructor
  · rcases hmt : optionMapM (resolveType r) r.types with _ | types2
    · rw [show r.finalize = none from by rw [Resolver.finalize, hmt]]
      simp only [Option.isSome_none]
      constructor
      · intro h
        cases h
      · rintro ⟨hty, _⟩
        have : (optionMapM (resolveType r) r.types).isSome = true :=
          (optionMapM_isSome_iff _ _).mpr
            (fun t ht => (resolveType_isSome_iff r t).mpr (fun nm ms mt pm heq me hme =>
              hty t ht nm ms mt pm heq me hme))
        rw [hmt] at this
        cases this
    · rw [show r.finalize = (optionMapM (resolveFunction r) r.functions).map
          (fun fns => { r with types := types2, functions := fns }) from by
          rw [Resolver.finalize, hmt]]
      rcases hmf : optionMapM (resolveFunction r) r.functions with _ | fns
      · constructor
        · intro hc
          simp at hc
        · rintro ⟨_, hfn⟩
          have : (optionMapM (resolveFunction r) r.functions).isSome = true :=
            (optionMapM_isSome_iff _ _).mpr
              (fun f hf => (resolveFunction_isSome_iff r f).mpr (hfn f hf))
          rw [hmf] at this
          cases this
      · constructor
        · intro _
          constructor
          · intro t ht nm ms mt pm heq me hme
            have := (optionMapM_isSome_iff (resolveType r) r.types).mp (by rw [hmt]; rfl) t ht
            exact (resolveType_isSome_iff r t).mp this nm ms mt pm heq me hme
          · intro f hf
            have := (optionMapM_isSome_iff (resolveFunction r) r.functions).mp
              (by rw [hmf]; rfl) f hf
            exact (resolveFunction_isSome_iff r f).mp this
        · intro _
          rfl
  · intro r2 h2
    rcases hmt : optionMapM (resolveType r) r.types with _ | types2
    · rw [Resolver.finalize, hmt] at h2
      cases h2
    · rw [Resolver.finalize, hmt] at h2
      have hx : (optionMapM (resolveFunction r) r.functions).map
          (fun fns => { r with types := types2, functions := fns }) = some r2 := h2
      rcases hmf : optionMapM (resolveFunction r) r.functions with _ | fns
      · rw [hmf] at hx
        cases hx
      · rw [hmf] at hx
        have hr2 : ({ r with types := types2, functions := fns } : Resolver) = r2 := by
          simpa using hx
        rw [← hr2]
        constructor
        · intro t ht nm ms mt pm heq me hme
          obtain ⟨t0, _, ht0⟩ := optionMapM_mem hmt t ht
          exact resolveType_shape ht0 nm ms mt pm heq me hme
        · intro f hf
          obtain ⟨f0, _, hf0⟩ := optionMapM_mem hmf f hf
          exact resolveFunction_shape hf0

/-- A resolver whose one pending reference (`Right (5, 0)`) resolves to the
custom type at index 6. -/
def rOk : Resolver :=
  { modules := [{ name := 0, parent := none, imports := [], exports := [], functions := [0], types := [6], modules := [] }]
    types := [.bool, .str, .rune, .unit, .absurd, .infer, .custom 5 [] [] 0]
    functions := [{ name := 1, args := [], ret := .right 5 0, parent := 0 }]
    current_module := 0 }

def rOkAfter : Resolver :=
  { rOk with functions := [{ name := 1, args := [], ret := .left 6, parent := 0 }] }

/-- Witness for the amended C3 at a concrete resolver. -/
theorem C3_finalize_panics_on_unresolved_witness :
    (((rOk.finalize).isSome = true ↔ PendingResolvable rOk) ∧ AllResolved rOkAfter) :=
  ⟨(C3_finalize_panics_on_unresolved rOk).1,
   (C3_finalize_panics_on_unresolved rOk).2 rOkAfter (by decide)⟩

/-! ## Parser (src/crates/crunch-parser/src/parser/ast.rs)

Interned strings (`StrT`) are the character lists themselves (`intern` and
`resolve` are the identity, which satisfies the interner contract of §3 of
the spec).  Arena tickets are modelled by storing the node inline. -/

structure Span where
  lo : Nat
  hi : Nat
deriving Repr, DecidableEq

/-- Modelled from the spec: `Span` and `Span::merge` live in the
crunch-shared error module, which is not under src/.  §3: a span is a
half-open `[start, end)` byte range; a merged span covers from the start
of the first to the end of the second. -/
def Span.merge (a b : Span) : Span := ⟨a.lo, b.hi⟩

/-- Modelled from the spec: `Location` (crunch-shared, not under src/).
§3: "a span plus a file identifier; a variant indicates whether the
location is concrete (from source) or implicit (synthesized)". -/
inductive Location
  | concrete (s : Span) (f : Nat)
  | implicit (s : Span) (f : Nat)
deriving Repr, DecidableEq

def Location.isImplicit : Location → Bool
  | .implicit _ _ => true
  | .concrete _ _ => false

def Location.span : Location → Span
  | .implicit s _ => s
  | .concrete s _ => s

/-- `Locatable<T>`. -/
structure PLoc (α : Type) where
  data : α
  location : Location
deriving Repr, DecidableEq

/-- The token kinds of §6 that the embedded productions inspect. -/
inductive TokenType
  | ident
  | string
  | intLit
  | atSign
  | function
  | typeTok
  | enumTok
  | traitTok
  | importTok
  | extend
  | alias
  | exposing
  | exposed
  | package
  | library
  | const
  | asTok
  | comma
  | colon
  | dot
  | equal
  | star
  | leftParen
  | rightParen
  | leftBrace
  | rightBrace
  | rightArrow
  | newline
  | space
  | endTok
  | withTok
deriving Repr, DecidableEq

structure Token where
  ty : TokenType
  src : List Char
  span : Span
deriving Repr, DecidableEq

/-- The parser's cursor: the remaining tokens and the current file id. -/
structure PState where
  tokens : List Token
  file : Nat
deriving Repr, DecidableEq

/-- The syntax-error variants the embedded productions construct, plus
`outOfFuel`, a verification artifact marking an exhausted loop bound (the
source loops are bounded by the token stream instead). -/
inductive PErr
  | generic
  | endOfFile
  | noAttributesAllowed
  | noDecoratorsAllowed
  | invalidTopLevel (t : TokenType)
  | missingImport
  | importStringLiteral
  | importByteStringLiteral
  | outOfFuel
deriving Repr, DecidableEq

abbrev PRes (α : Type) := Except (PErr × Location) α

/-- Modelled from the spec: `peek`/`next`/`eat` live in token-stream code
that is not under src/.  `peek` inspects the next token (`EndOfFile` at
stream end), `next` consumes it, `eat ty skips` consumes the next token
when its kind is `ty` and fails with a generic syntax error otherwise; the
recovery list argument is kept to mirror the call sites but its behavior
is unspecified and ignored. -/
def peekT (st : PState) : PRes Token :=
  match st.tokens with
  | [] => .error (.endOfFile, .concrete ⟨0, 0⟩ st.file)
  | t :: _ => .ok t

def nextT (st : PState) : PState × PRes Token :=
  match st.tokens with
  | [] => (st, .error (.endOfFile, .concrete ⟨0, 0⟩ st.file))
  | t :: rest => ({ st with tokens := rest }, .ok t)

def eatT (st : PState) (ty : TokenType) (_skips : List TokenType) : PState × PRes Token :=
  match st.tokens with
  | [] => (st, .error (.endOfFile, .concrete ⟨0, 0⟩ st.file))
  | t :: rest =>
    if t.ty = ty then ({ st with tokens := rest }, .ok t)
    else (st, .error (.generic, .concrete t.span st.file))

/-- Rust `str::split('.')` over the path's characters: the (possibly
empty) segments between the dots.  It never yields an empty list. -/
def splitDot : List Char → List (List Char)
  | [] => [[]]
  | c :: rest =>
    if c = '.' then [] :: splitDot rest
    else
      match splitDot rest with
      | [] => [[c]]
      | seg :: segs => (c :: seg) :: segs

theorem splitDot_ne_nil (s : List Char) : splitDot s ≠ [] := by
  cases s with
  | nil =>
    intro h
    cases h
  | cons c rest =>
    intro h
    rw [splitDot] at h
    by_cases hc : c = '.'
    · rw [if_pos hc] at h
      cases h
    · rw [if_neg hc] at h
      rcases hr : splitDot rest with _ | ⟨seg, segs⟩ <;> rw [hr] at h <;> cases h

theorem getLast?_ne_none {α : Type} {l : List α} (h : l ≠ []) : l.getLast? ≠ none := by
  cases l with
  | nil => exact absurd rfl h
  | cons x rest =>
    intro hc
    rw [List.getLast?_eq_getLast _ (by simp)] at hc
    cases hc

/-- Modelled from the spec: `eat_of` consumes the next token when its kind
is one of the listed kinds and fails with a generic syntax error otherwise
(the recovery list is ignored, as for `eat`). -/
def eatOf (st : PState) (tys : List TokenType) (_skips : List TokenType) : PState × PRes Token :=
  match st.tokens with
  | [] => (st, .error (.endOfFile, .concrete ⟨0, 0⟩ st.file))
  | t :: rest =>
    if t.ty ∈ tys then ({ st with tokens := rest }, .ok t)
    else (st, .error (.generic, .concrete t.span st.file))

/-- `Type`: `Type::default()` is the inferred/unknown type; within the
embedded fragment every ascribed type is a bare named type. -/
inductive PType
  | default
  | named (n : List Char)
deriving Repr, DecidableEq

/-- Expressions appear in the embedded fragment only as decorator
arguments; their structure is irrelevant there, so a parsed expression is
the token it started at. -/
inductive PExpr
  | leaf (t : Token)
deriving Repr, DecidableEq

inductive PStmt
  | leaf (t : Token)
deriving Repr, DecidableEq

inductive Visibility
  | fileLocal
  | package
  | exposed
deriving Repr, DecidableEq

inductive PAttribute
  | visibility (v : Visibility)
  | const
deriving Repr, DecidableEq

def PAttribute.is_visibility : PAttribute → Bool
  | .visibility _ => true
  | .const => false

structure Decorator where
  name : PLoc (List Char)
  args : List PExpr
deriving Repr, DecidableEq

structure FuncArg where
  name : PLoc (List Char)
  ty : PLoc PType
  comptime : Bool
deriving Repr, DecidableEq

structure PFunction where
  decorators : List (PLoc Decorator)
  attrs : List (PLoc PAttribute)
  name : List Char
  args : List (PLoc FuncArg)
  returns : PLoc PType
  body : List PStmt
deriving Repr, DecidableEq

structure TypeMember where
  decorators : List (PLoc Decorator)
  attrs : List (PLoc PAttribute)
  name : List Char
  ty : PLoc PType
deriving Repr, DecidableEq

structure TypeDecl where
  decorators : List (PLoc Decorator)
  attrs : List (PLoc PAttribute)
  name : List Char
  generics : List (PLoc PType)
  members : List (PLoc TypeMember)
deriving Repr, DecidableEq

inductive EnumVariant
  | unit (name : List Char) (decorators : List (PLoc Decorator))
  | tuple (name : List Char) (elements : List (PLoc PType)) (decorators : List (PLoc Decorator))
deriving Repr, DecidableEq

structure PEnum where
  decorators : List (PLoc Decorator)
  attrs : List (PLoc PAttribute)
  name : List Char
  generics : List (PLoc PType)
  variants : List (PLoc EnumVariant)
deriving Repr, DecidableEq

structure PTrait where
  decorators : List (PLoc Decorator)
  attrs : List (PLoc PAttribute)
  name : List Char
  generics : List (PLoc PType)
  methods : List (PLoc PFunction)
deriving Repr, DecidableEq

inductive ImportDest
  | nativeLib
  | package
  | relative
deriving Repr, DecidableEq

/-- `ImportExposure`; `noneEx` is the source's `None` variant (a default
alias). -/
inductive ImportExposure
  | noneEx (a : PLoc (List Char))
  | all
  | members (ms : List (PLoc ((List Char) × Option (List Char))))
deriving Repr, DecidableEq

structure PImport where
  file : PLoc (List Char)
  dest : ImportDest
  exposes : ImportExposure
deriving Repr, DecidableEq

inductive Ast
  | function (f : PLoc PFunction)
  | typeDecl (t : PLoc TypeDecl)
  | enumDecl (e : PLoc PEnum)
  | traitDecl (t : PLoc PTrait)
  | importDecl (i : PLoc PImport)
deriving Repr, DecidableEq

/-- `Attribute::try_from` on a token (ast.rs lines 232-252). -/
def attrFrom (t : Token) (file : Nat) : PRes PAttribute :=
  match t.ty with
  | .exposed => .ok (.visibility .exposed)
  | .package => .ok (.visibility .package)
  | .const => .ok .const
  | _ => .error (.generic, .concrete t.span file)

/-- Modelled from the spec: `ascribed_type` is not under src/.  In the
embedded fragment every type annotation is a bare identifier, so the model
consumes one `Ident` token and yields a named type at its concrete span. -/
def ascribedTypeP (st : PState) : PState × PRes (PLoc PType) :=
  match eatT st .ident [.newline] with
  | (st1, .error e) => (st1, .error e)
  | (st1, .ok t) => (st1, .ok ⟨.named t.src, .concrete t.span st1.file⟩)

/-- Modelled from the spec: `expr` is not under src/; decorator arguments
only need to consume tokens here, so an expression is one token. -/
def exprP (st : PState) : PState × PRes PExpr :=
  match nextT st with
  | (st1, .error e) => (st1, .error e)
  | (st1, .ok t) => (st1, .ok (.leaf t))

/-- Modelled from the spec: `stmt` is not under src/.  It returns
`None` when it consumed only trivia (a newline here) and `Some` with the
parsed statement otherwise; the model consumes one token. -/
def stmtP (st : PState) : PState × PRes (Option PStmt) :=
  match nextT st with
  | (st1, .error e) => (st1, .error e)
  | (st1, .ok t) =>
    if t.ty = .newline then (st1, .ok none) else (st1, .ok (some (.leaf t)))

/-- The argument loop of `decorator` (ast.rs lines 729-753): expressions
separated by commas until the closing paren; a failing peek after an
argument breaks out of the loop rather than failing. -/
def decorArgsLoop (fuel : Nat) (st : PState) (args : List PExpr) : PState × PRes (List PExpr) :=
  match fuel with
  | 0 => (st, .error (.outOfFuel, .concrete ⟨0, 0⟩ st.file))
  | fuel + 1 =>
    match peekT st with
    | .error e => (st, .error e)
    | .ok t =>
      if t.ty = .rightParen then (st, .ok args)
      else
        match exprP st with
        | (st1, .error e) => (st1, .error e)
        | (st1, .ok e) =>
          match peekT st1 with
          | .ok p =>
            if p.ty = .comma then
              match eatT st1 .comma [.newline] with
              | (st2, .error e2) => (st2, .error e2)
              | (st2, .ok _) => decorArgsLoop fuel st2 (args ++ [e])
            else (st1, .ok (args ++ [e]))
          | .error _ => (st1, .ok (args ++ [e]))

/-- `decorator` (ast.rs lines 716-764): `@` Ident, optionally a
parenthesized argument list; appends the decorator to the accumulator. -/
def decoratorP (fuel : Nat) (st : PState) (decorators : List (PLoc Decorator)) : PState × PRes (List (PLoc Decorator)) :=
  match eatT st .atSign [.newline] with
  | (st1, .error e) => (st1, .error e)
  | (st1, .ok at0) =>
    match eatT st1 .ident [.newline] with
    | (st2, .error e) => (st2, .error e)
    | (st2, .ok identTok) =>
      match peekT st2 with
      | .error e => (st2, .error e)
      | .ok p =>
        if p.ty = .leftParen then
          match eatT st2 .leftParen [.newline] with
          | (st3, .error e) => (st3, .error e)
          | (st3, .ok _) =>
            match decorArgsLoop fuel st3 [] with
            | (st4, .error e) => (st4, .error e)
            | (st4, .ok args) =>
              match eatT st4 .rightParen [.newline] with
              | (st5, .error e) => (st5, .error e)
              | (st5, .ok rp) =>
                (st5, .ok (decorators ++ [⟨⟨⟨identTok.src, .concrete identTok.span st5.file⟩, args⟩, .concrete (Span.merge at0.span rp.span) st5.file⟩]))
        else
          (st2, .ok (decorators ++ [⟨⟨⟨identTok.src, .concrete identTok.span st2.file⟩, []⟩, .concrete (Span.merge at0.span identTok.span) st2.file⟩]))

/-- The element loop of `generics` (ast.rs lines 1110-1119): ascribed
types separated by commas until the closing brace. -/
def genericsLoop (fuel : Nat) (st : PState) (acc : List (PLoc PType)) : PState × PRes (List (PLoc PType)) :=
  match fuel with
  | 0 => (st, .error (.outOfFuel, .concrete ⟨0, 0⟩ st.file))
  | fuel + 1 =>
    match peekT st with
    | .error e => (st, .error e)
    | .ok t =>
      if t.ty = .rightBrace then (st, .ok acc)
      else
        match ascribedTypeP st with
        | (st1, .error e) => (st1, .error e)
        | (st1, .ok ty) =>
          match peekT st1 with
          | .error e => (st1, .error e)
          | .ok p =>
            if p.ty = .comma then
              match eatT st1 .comma [.newline] with
              | (st2, .error e) => (st2, .error e)
              | (st2, .ok _) => genericsLoop fuel st2 (acc ++ [ty])
            else (st1, .ok (acc ++ [ty]))

/-- `generics` (ast.rs lines 1103-1131): a failing peek yields no
generics; a `[` opens the comma-separated list. -/
def genericsP (fuel : Nat) (st : PState) : PState × PRes (List (PLoc PType)) :=
  match peekT st with
  | .error _ => (st, .ok [])
  | .ok p =>
    if p.ty = .leftBrace then
      match eatT st .leftBrace [.newline] with
      | (st1, .error e) => (st1, .error e)
      | (st1, .ok _) =>
        match genericsLoop fuel st1 [] with
        | (st2, .error e) => (st2, .error e)
        | (st2, .ok gs) =>
          match eatT st2 .rightBrace [.newline] with
          | (st3, .error e) => (st3, .error e)
          | (st3, .ok _) => (st3, .ok gs)
    else (st, .ok [])

/-- The argument loop of `function_args` (ast.rs lines 1050-1092): each
argument is `Ident : Type` or `const Ident : Type`, comma separated, until
the closing paren. -/
def fnArgsLoop (fuel : Nat) (st : PState) (acc : List (PLoc FuncArg)) : PState × PRes (List (PLoc FuncArg)) :=
  match fuel with
  | 0 => (st, .error (.outOfFuel, .concrete ⟨0, 0⟩ st.file))
  | fuel + 1 =>
    match peekT st with
    | .error e => (st, .error e)
    | .ok t =>
      if t.ty = .rightParen then (st, .ok acc)
      else
        match eatOf st [.ident, .const] [.newline] with
        | (st1, .error e) => (st1, .error e)
        | (st1, .ok tk) =>
          match (if tk.ty = .ident then
                   (st1, Except.ok (false, (⟨tk.src, .concrete tk.span st1.file⟩ : PLoc (List Char)), tk.span))
                 else
                   match eatT st1 .ident [.newline] with
                   | (st2, .error e) => (st2, .error e)
                   | (st2, .ok identTok) => (st2, .ok (true, ⟨identTok.src, .concrete identTok.span st2.file⟩, tk.span))) with
          | (st2, .error e) => (st2, .error e)
          | (st2, .ok (comptime, name, nameSpan)) =>
            match eatT st2 .colon [.newline] with
            | (st3, .error e) => (st3, .error e)
            | (st3, .ok _) =>
              match ascribedTypeP st3 with
              | (st4, .error e) => (st4, .error e)
              | (st4, .ok ty) =>
                let acc2 := acc ++ [⟨⟨name, ty, comptime⟩, .concrete (Span.merge nameSpan ty.location.span) st4.file⟩]
                match peekT st4 with
                | .error e => (st4, .error e)
                | .ok p =>
                  if p.ty = .comma then
                    match eatT st4 .comma [.newline] with
                    | (st5, .error e) => (st5, .error e)
                    | (st5, .ok _) => fnArgsLoop fuel st5 acc2
                  else (st4, .ok acc2)

/-- `function_args` (ast.rs lines 1046-1096). -/
def functionArgsP (fuel : Nat) (st : PState) : PState × PRes (List (PLoc FuncArg)) :=
  match eatT st .leftParen [.newline] with
  | (st1, .error e) => (st1, .error e)
  | (st1, .ok _) =>
    match fnArgsLoop fuel st1 [] with
    | (st2, .error e) => (st2, .error e)
    | (st2, .ok args) =>
      match eatT st2 .rightParen [.newline] with
      | (st3, .error e) => (st3, .error e)
      | (st3, .ok _) => (st3, .ok args)

inductive LitKind
  | str (s : List Char)
  | arr
  | other
deriving Repr, DecidableEq

/-- Modelled from the spec: `Literal::try_from` on a string token is not
under src/.  §6: a `b`-prefixed string lexes to a byte-array literal and a
plain string to a string literal; any other literal shape (modelled by an
`f` prefix) is neither.  Escape handling is out of the embedded fragment's
scope, so the conversion is total here; the real conversion's own lexical
errors are in a different module and are not `MissingImport`. -/
def litOf (t : Token) : LitKind :=
  match t.src.head? with
  | some 'b' => .arr
  | some 'f' => .other
  | _ => .str t.src

/-- The optional `as Ident` alias of an import member (ast.rs lines
428-440); `p` is the already-peeked next token. -/
def importAliasOptP (st1 : PState) (p : Token) : PState × PRes (Option (List Char)) :=
  if p.ty = .asTok then
    match eatT st1 .asTok [.newline] with
    | (st2, .error e) => (st2, .error e)
    | (st2, .ok _) =>
      match eatT st2 .ident [.newline] with
      | (st3, .error e) => (st3, .error e)
      | (st3, .ok a) => (st3, .ok (some a.src))
  else (st1, .ok none)

/-- The member loop of `import` (ast.rs lines 422-454): `Ident (as Ident)?`
entries separated by commas until a newline. -/
def importMembersLoop (fuel : Nat) (st : PState) (acc : List (PLoc ((List Char) × Option (List Char)))) : PState × PRes (List (PLoc ((List Char) × Option (List Char)))) :=
  match fuel with
  | 0 => (st, .error (.outOfFuel, .concrete ⟨0, 0⟩ st.file))
  | fuel + 1 =>
    match peekT st with
    | .error e => (st, .error e)
    | .ok t =>
      if t.ty = .newline then (st, .ok acc)
      else
        match eatT st .ident [.newline] with
        | (st1, .error e) => (st1, .error e)
        | (st1, .ok identTok) =>
          match peekT st1 with
          | .error e => (st1, .error e)
          | .ok p =>
            match importAliasOptP st1 p with
            | (st2, .error e) => (st2, .error e)
            | (st2, .ok aliasOpt) =>
              let acc2 := acc ++ [⟨(identTok.src, aliasOpt), .concrete identTok.span st2.file⟩]
              match peekT st2 with
              | .error e => (st2, .error e)
              | .ok q =>
                if q.ty = .comma then
                  match eatT st2 .comma [.newline] with
                  | (st3, .error e) => (st3, .error e)
                  | (st3, .ok _) => importMembersLoop fuel st3 acc2
                else (st2, .ok acc2)

/-- The default-alias computation of `import` (ast.rs lines 466-479): the
last `.`-separated segment of the already-parsed path string, or a
`MissingImport` error (located at the next token) if the split yields no
segment. -/
def importDefaultAlias (st : PState) (fileData : List Char) (fileSpan : Span) : PState × PRes (PLoc (List Char)) :=
  match (splitDot fileData).getLast? with
  | none =>
    match peekT st with
    | .error e => (st, .error e)
    | .ok q => (st, .error (.missingImport, .concrete q.span st.file))
  | some seg => (st, .ok ⟨seg, .concrete fileSpan st.file⟩)

theorem importDefaultAlias_eq (st : PState) (d : List Char) (sp : Span) :
    importDefaultAlias st d sp = (st, .ok ⟨((splitDot d).getLast?).getD [], .concrete sp st.file⟩) := by
  rcases hl : (splitDot d).getLast? with _ | seg
  · exact absurd hl (getLast?_ne_none (splitDot_ne_nil d))
  · rw [importDefaultAlias, hl]
    rfl

/-- The alias of the exposure-less branch of `import` (ast.rs lines
458-480): `as Ident` if present, otherwise the default alias. -/
def importAliasP (st3 : PState) (fileData : List Char) (fileSpan : Span) : PState × PRes (PLoc (List Char)) :=
  match peekT st3 with
  | .error e => (st3, .error e)
  | .ok p =>
    if p.ty = .asTok then
      match eatT st3 .asTok [.newline] with
      | (st4, .error e) => (st4, .error e)
      | (st4, .ok _) =>
        match eatT st4 .ident [.newline] with
        | (st5, .error e) => (st5, .error e)
        | (st5, .ok a) => (st5, .ok ⟨a.src, .concrete a.span st5.file⟩)
    else importDefaultAlias st3 fileData fileSpan

/-- The destination of `import` (ast.rs lines 401-411). -/
def importDestP (st2 : PState) : PState × PRes ImportDest :=
  match peekT st2 with
  | .error e => (st2, .error e)
  | .ok p =>
    if p.ty = .library then
      match eatT st2 .library [.newline] with
      | (st3, .error e) => (st3, .error e)
      | (st3, .ok _) => (st3, .ok .nativeLib)
    else if p.ty = .package then
      match eatT st2 .package [.newline] with
      | (st3, .error e) => (st3, .error e)
      | (st3, .ok _) => (st3, .ok .package)
    else (st2, .ok .relative)

/-- The exposure of `import` (ast.rs lines 413-485): `exposing *`,
`exposing member-list`, or the (possibly defaulted) alias. -/
def importExposureP (fuel : Nat) (st3 : PState) (fileData : List Char) (fileSpan : Span) : PState × PRes ImportExposure :=
  match peekT st3 with
  | .error e => (st3, .error e)
  | .ok p =>
    if p.ty = .exposing then
      match eatT st3 .exposing [.newline] with
      | (st4, .error e) => (st4, .error e)
      | (st4, .ok _) =>
        match peekT st4 with
        | .error e => (st4, .error e)
        | .ok q =>
          if q.ty = .star then
            match eatT st4 .star [.newline] with
            | (st5, .error e) => (st5, .error e)
            | (st5, .ok _) => (st5, .ok .all)
          else
            match importMembersLoop fuel st4 [] with
            | (st5, .error e) => (st5, .error e)
            | (st5, .ok ms) => (st5, .ok (.members ms))
    else
      match importAliasP st3 fileData fileSpan with
      | (st4, .error e) => (st4, .error e)
      | (st4, .ok a) => (st4, .ok (.noneEx a))

/-- `import` (ast.rs lines 375-521). -/
def importP (fuel : Nat) (st : PState) (decorators : List (PLoc Decorator)) : PState × PRes Ast :=
  match eatT st .importTok [.newline] with
  | (st1, .error e) => (st1, .error e)
  | (st1, .ok imp) =>
    match eatT st1 .string [.newline] with
    | (st2, .error e) => (st2, .error e)
    | (st2, .ok fileTok) =>
      match litOf fileTok with
      | .arr => (st2, .error (.importByteStringLiteral, .concrete fileTok.span st2.file))
      | .other => (st2, .error (.importStringLiteral, .concrete fileTok.span st2.file))
      | .str s =>
        match importDestP st2 with
        | (st3, .error e) => (st3, .error e)
        | (st3, .ok dest) =>
          match importExposureP fuel st3 s fileTok.span with
          | (st4, .error e) => (st4, .error e)
          | (st4, .ok exposes) =>
            match eatT st4 .newline [] with
            | (st5, .error e) => (st5, .error e)
            | (st5, .ok nl) =>
              if decorators = [] then
                (st5, .ok (.importDecl ⟨⟨⟨s, .concrete fileTok.span st2.file⟩, dest, exposes⟩, .concrete (Span.merge imp.span nl.span) st5.file⟩))
              else
                let first := ((decorators.head?).map (fun (d : PLoc Decorator) => d.location.span)).getD ⟨0, 0⟩
                let last := ((decorators.getLast?).map (fun (d : PLoc Decorator) => d.location.span)).getD first
                (st5, .error (.noDecoratorsAllowed, .concrete (Span.merge first last) st5.file))

theorem eatT_ne_missing (st : PState) (ty : TokenType) (sk : List TokenType) (p : PState) (l : Location) :
    eatT st ty sk ≠ (p, Except.error (PErr.missingImport, l)) := by
  intro h
  unfold eatT at h
  repeat' split at h
  all_goals simp_all

theorem peekT_ne_missing (st : PState) (l : Location) :
    peekT st ≠ Except.error (PErr.missingImport, l) := by
  intro h
  unfold peekT at h
  repeat' split at h
  all_goals simp_all

theorem importAliasOptP_ne_missing (st : PState) (t : Token) (p : PState) (l : Location) :
    importAliasOptP st t ≠ (p, Except.error (PErr.missingImport, l)) := by
  intro h
  unfold importAliasOptP at h
  repeat' split at h
  all_goals simp_all [eatT_ne_missing]

theorem importMembersLoop_ne_missing (fuel : Nat) :
    ∀ (st : PState) (acc : List (PLoc ((List Char) × Option (List Char)))) (p : PState) (l : Location),
      importMembersLoop fuel st acc ≠ (p, Except.error (PErr.missingImport, l)) := by
  induction fuel with
  | zero =>
    intro st acc p l h
    unfold importMembersLoop at h
    simp_all
  | succ n ih =>
    intro st acc p l h
    unfold importMembersLoop at h
    repeat' split at h
    all_goals simp_all [ih, eatT_ne_missing, peekT_ne_missing, importAliasOptP_ne_missing]

theorem importAliasP_ne_missing (st : PState) (d : List Char) (sp : Span) (p : PState) (l : Location) :
    importAliasP st d sp ≠ (p, Except.error (PErr.missingImport, l)) := by
  intro h
  unfold importAliasP at h
  repeat' split at h
  all_goals simp_all [eatT_ne_missing, peekT_ne_missing, importDefaultAlias_eq]

theorem importDestP_ne_missing (st : PState) (p : PState) (l : Location) :
    importDestP st ≠ (p, Except.error (PErr.missingImport, l)) := by
  intro h
  unfold importDestP at h
  repeat' split at h
  all_goals simp_all [eatT_ne_missing, peekT_ne_missing]

theorem importExposureP_ne_missing (fuel : Nat) (st : PState) (d : List Char) (sp : Span) (p : PState) (l : Location) :
    importExposureP fuel st d sp ≠ (p, Except.error (PErr.missingImport, l)) := by
  intro h
  unfold importExposureP at h
  repeat' split at h
  all_goals simp_all [eatT_ne_missing, peekT_ne_missing, importMembersLoop_ne_missing, importAliasP_ne_missing]

/-- C10: the import parser never reports `SyntaxError::MissingImport`: the
default alias is the last segment of `split` on the path string, which
always yields at least one segment, so the `MissingImport` branch is dead
on every input. -/
theorem C10_no_missing_import (fuel : Nat) (st : PState) (decorators : List (PLoc Decorator)) (e : PErr) (loc : Location) (h : (importP fuel st decorators).2 = .error (e, loc)) : e ≠ .missingImport := by
  intro hc
  subst hc
  unfold importP at h
  repeat' split at h
  all_goals simp_all [eatT_ne_missing, importDestP_ne_missing, importExposureP_ne_missing]

theorem C10_no_missing_import_witness :
    ((importP 5 ⟨[], 0⟩ []).2 = Except.error (PErr.endOfFile, Location.concrete ⟨0, 0⟩ 0) ∧ PErr.endOfFile ≠ PErr.missingImport) :=
  ⟨by decide, C10_no_missing_import 5 ⟨[], 0⟩ [] .endOfFile (.concrete ⟨0, 0⟩ 0) (by decide)⟩

/-- The visibility-injection step shared by the declaration parsers
(ast.rs lines 825-830, 591-596, 695-700, 868-871, 1018-1023): when no
attribute in the list is a visibility, a `FileLocal` visibility located at
`loc` is appended. -/
def finishVis (attrs : List (PLoc PAttribute)) (loc : Location) : List (PLoc PAttribute) :=
  if attrs.any (fun (a : PLoc PAttribute) => a.data.is_visibility) then attrs
  else attrs ++ [⟨.visibility .fileLocal, loc⟩]

/-- The signature of `function` (ast.rs lines 984-1004): `fn Ident Args
(-> Type)? newline`; yields the start span, name, arguments, return type
(defaulted to an implicitly-located inferred type at the signature span)
and the signature span. -/
def fnHeaderP (fuel : Nat) (st : PState) : PState × PRes (Span × List Char × List (PLoc FuncArg) × PLoc PType × Span) :=
  match eatT st .function [.newline] with
  | (st1, .error e) => (st1, .error e)
  | (st1, .ok fnTok) =>
    match eatT st1 .ident [.newline] with
    | (st2, .error e) => (st2, .error e)
    | (st2, .ok nameTok) =>
      match functionArgsP fuel st2 with
      | (st3, .error e) => (st3, .error e)
      | (st3, .ok args) =>
        match ((match peekT st3 with
                | .error e => (st3, .error e)
                | .ok p =>
                  if p.ty = .rightArrow then
                    match eatT st3 .rightArrow [] with
                    | (st4, .error e) => (st4, .error e)
                    | (st4, .ok _) =>
                      match ascribedTypeP st4 with
                      | (st5, .error e) => (st5, .error e)
                      | (st5, .ok ty) => (st5, .ok (some ty))
                  else (st3, .ok none)) : PState × PRes (Option (PLoc PType))) with
        | (st4, .error e) => (st4, .error e)
        | (st4, .ok retOpt) =>
          match eatT st4 .newline [] with
          | (st5, .error e) => (st5, .error e)
          | (st5, .ok sigEnd) =>
            (st5, .ok (fnTok.span, nameTok.src, args, retOpt.getD ⟨.default, .implicit (Span.merge fnTok.span sigEnd.span) st5.file⟩, Span.merge fnTok.span sigEnd.span))

/-- The newline-skipping loop of `function` (ast.rs lines 1006-1008). -/
def skipNewlines (fuel : Nat) (st : PState) : PState × PRes Unit :=
  match fuel with
  | 0 => (st, .error (.outOfFuel, .concrete ⟨0, 0⟩ st.file))
  | fuel + 1 =>
    match peekT st with
    | .error e => (st, .error e)
    | .ok t =>
      if t.ty = .newline then
        match eatT st .newline [] with
        | (st1, .error e) => (st1, .error e)
        | (st1, .ok _) => skipNewlines fuel st1
      else (st, .ok ())

/-- The body loop of `function` (ast.rs lines 1010-1015): statements until
`end`. -/
def fnBodyLoop (fuel : Nat) (st : PState) (acc : List PStmt) : PState × PRes (List PStmt) :=
  match fuel with
  | 0 => (st, .error (.outOfFuel, .concrete ⟨0, 0⟩ st.file))
  | fuel + 1 =>
    match peekT st with
    | .error e => (st, .error e)
    | .ok t =>
      if t.ty = .endTok then (st, .ok acc)
      else
        match stmtP st with
        | (st1, .error e) => (st1, .error e)
        | (st1, .ok none) => fnBodyLoop fuel st1 acc
        | (st1, .ok (some stm)) => fnBodyLoop fuel st1 (acc ++ [stm])

/-- `function` (ast.rs lines 976-1038). -/
def functionP (fuel : Nat) (st : PState) (decorators : List (PLoc Decorator)) (attrs : List (PLoc PAttribute)) : PState × PRes Ast :=
  match fnHeaderP fuel st with
  | (st1, .error e) => (st1, .error e)
  | (st1, .ok (startSpan, name, args, returns, sigSpan)) =>
    match skipNewlines fuel st1 with
    | (st2, .error e) => (st2, .error e)
    | (st2, .ok _) =>
      match fnBodyLoop fuel st2 [] with
      | (st3, .error e) => (st3, .error e)
      | (st3, .ok body) =>
        match eatT st3 .endTok [.newline] with
        | (st4, .error e) => (st4, .error e)
        | (st4, .ok endT) =>
          (st4, .ok (.function ⟨⟨decorators, finishVis attrs (.implicit sigSpan st4.file), name, args, returns, body⟩, .concrete (Span.merge startSpan endT.span) st4.file⟩))

/-- The shared `kw Ident Generics? newline` signature of `type_decl`,
`enum_decl` and `trait_decl` (ast.rs lines 528-536, 617-625, 779-786):
yields the start span, name, generics and signature span. -/
def declHeaderP (fuel : Nat) (st : PState) (kw : TokenType) : PState × PRes (Span × List Char × List (PLoc PType) × Span) :=
  match eatT st kw [.newline] with
  | (st1, .error e) => (st1, .error e)
  | (st1, .ok kwTok) =>
    match eatT st1 .ident [.newline] with
    | (st2, .error e) => (st2, .error e)
    | (st2, .ok nameTok) =>
      match genericsP fuel st2 with
      | (st3, .error e) => (st3, .error e)
      | (st3, .ok gens) =>
        match eatT st3 .newline [] with
        | (st4, .error e) => (st4, .error e)
        | (st4, .ok sigEnd) =>
          (st4, .ok (kwTok.span, nameTok.src, gens, Span.merge kwTok.span sigEnd.span))

/-- The member loop of `type_decl` (ast.rs lines 794-852); returns the
leftover member decorators and attributes along with the members. -/
def typeMembersLoop (fuel : Nat) (st : PState) (sigSpan : Span) (mDecs : List (PLoc Decorator)) (mAttrs : List (PLoc PAttribute)) (members : List (PLoc TypeMember)) : PState × PRes (List (PLoc Decorator) × List (PLoc PAttribute) × List (PLoc TypeMember)) :=
  match fuel with
  | 0 => (st, .error (.outOfFuel, .concrete ⟨0, 0⟩ st.file))
  | fuel + 1 =>
    match peekT st with
    | .error e => (st, .error e)
    | .ok t =>
      if t.ty = .endTok then (st, .ok (mDecs, mAttrs, members))
      else
        match t.ty with
        | .atSign =>
          match decoratorP fuel st mDecs with
          | (st1, .error e) => (st1, .error e)
          | (st1, .ok mDecs2) => typeMembersLoop fuel st1 sigSpan mDecs2 mAttrs members
        | .exposed | .package =>
          match nextT st with
          | (st1, .error e) => (st1, .error e)
          | (st1, .ok tok) =>
            match attrFrom tok st1.file with
            | .error e => (st1, .error e)
            | .ok attr => typeMembersLoop fuel st1 sigSpan mDecs (mAttrs ++ [⟨attr, .concrete tok.span st1.file⟩]) members
        | .ident =>
          match eatT st .ident [.newline] with
          | (st1, .error e) => (st1, .error e)
          | (st1, .ok nameTok) =>
            match ((match peekT st1 with
                    | .error e => (st1, .error e)
                    | .ok p =>
                      if p.ty = .colon then
                        match eatT st1 .colon [.newline] with
                        | (st2, .error e) => (st2, .error e)
                        | (st2, .ok _) => ascribedTypeP st2
                      else (st1, .ok ⟨.default, .implicit nameTok.span st1.file⟩)) : PState × PRes (PLoc PType)) with
            | (st2, .error e) => (st2, .error e)
            | (st2, .ok ty) =>
              let mAttrs2 := finishVis mAttrs (.implicit sigSpan st2.file)
              match eatT st2 .newline [] with
              | (st3, .error e) => (st3, .error e)
              | (st3, .ok memEnd) =>
                typeMembersLoop fuel st3 sigSpan [] [] (members ++ [⟨⟨mDecs, mAttrs2, nameTok.src, ty⟩, .concrete (Span.merge nameTok.span memEnd.span) st3.file⟩])
        | .newline =>
          match eatT st .newline [] with
          | (st1, .error e) => (st1, .error e)
          | (st1, .ok _) => typeMembersLoop fuel st1 sigSpan mDecs mAttrs members
        | ty2 => (st, .error (.invalidTopLevel ty2, .concrete t.span st.file))

/-- `type_decl` (ast.rs lines 772-885). -/
def typeDeclP (fuel : Nat) (st : PState) (decorators : List (PLoc Decorator)) (attrs : List (PLoc PAttribute)) : PState × PRes Ast :=
  match declHeaderP fuel st .typeTok with
  | (st1, .error e) => (st1, .error e)
  | (st1, .ok (startSpan, name, gens, sigSpan)) =>
    match typeMembersLoop fuel st1 sigSpan [] [] [] with
    | (st2, .error e) => (st2, .error e)
    | (st2, .ok (mDecs, mAttrs, members)) =>
      match eatT st2 .endTok [.newline] with
      | (st3, .error e) => (st3, .error e)
      | (st3, .ok endT) =>
        if mAttrs ≠ [] ∨ mDecs ≠ [] then
          match peekT st3 with
          | .error e => (st3, .error e)
          | .ok q => (st3, .error (.generic, .concrete q.span st3.file))
        else
          (st3, .ok (.typeDecl ⟨⟨decorators, finishVis attrs (.concrete sigSpan st3.file), name, gens, members⟩, .concrete (Span.merge startSpan endT.span) st3.file⟩))

/-- The element loop of a tuple enum variant (ast.rs lines 645-656). -/
def enumTupleLoop (fuel : Nat) (st : PState) (acc : List (PLoc PType)) : PState × PRes (List (PLoc PType)) :=
  match fuel with
  | 0 => (st, .error (.outOfFuel, .concrete ⟨0, 0⟩ st.file))
  | fuel + 1 =>
    match peekT st with
    | .error e => (st, .error e)
    | .ok t =>
      if t.ty = .rightParen then (st, .ok acc)
      else
        match ascribedTypeP st with
        | (st1, .error e) => (st1, .error e)
        | (st1, .ok ty) =>
          match peekT st1 with
          | .error e => (st1, .error e)
          | .ok p =>
            if p.ty = .comma then
              match eatT st1 .comma [.newline] with
              | (st2, .error e) => (st2, .error e)
              | (st2, .ok _) => enumTupleLoop fuel st2 (acc ++ [ty])
            else (st1, .ok (acc ++ [ty]))

/-- The variant loop of `enum_decl` (ast.rs lines 630-691). -/
def enumVariantsLoop (fuel : Nat) (st : PState) (vDecs : List (PLoc Decorator)) (variants : List (PLoc EnumVariant)) : PState × PRes (List (PLoc EnumVariant)) :=
  match fuel with
  | 0 => (st, .error (.outOfFuel, .concrete ⟨0, 0⟩ st.file))
  | fuel + 1 =>
    match peekT st with
    | .error e => (st, .error e)
    | .ok t =>
      if t.ty = .endTok then (st, .ok variants)
      else
        match t.ty with
        | .atSign =>
          match decoratorP fuel st vDecs with
          | (st1, .error e) => (st1, .error e)
          | (st1, .ok vDecs2) => enumVariantsLoop fuel st1 vDecs2 variants
        | .ident =>
          match eatT st .ident [.newline] with
          | (st1, .error e) => (st1, .error e)
          | (st1, .ok nameTok) =>
            match peekT st1 with
            | .error e => (st1, .error e)
            | .ok p =>
              match ((if p.ty = .leftParen then
                        match eatT st1 .leftParen [.newline] with
                        | (st2, .error e) => (st2, .error e)
                        | (st2, .ok _) =>
                          match enumTupleLoop fuel st2 [] with
                          | (st3, .error e) => (st3, .error e)
                          | (st3, .ok elems) =>
                            match eatT st3 .rightParen [.newline] with
                            | (st4, .error e) => (st4, .error e)
                            | (st4, .ok _) => (st4, .ok (EnumVariant.tuple nameTok.src elems vDecs))
                      else (st1, .ok (EnumVariant.unit nameTok.src vDecs))) : PState × PRes EnumVariant) with
              | (st2, .error e) => (st2, .error e)
              | (st2, .ok variant) =>
                match eatT st2 .newline [] with
                | (st3, .error e) => (st3, .error e)
                | (st3, .ok varEnd) =>
                  enumVariantsLoop fuel st3 [] (variants ++ [⟨variant, .concrete (Span.merge nameTok.span varEnd.span) st3.file⟩])
        | .newline =>
          match eatT st .newline [] with
          | (st1, .error e) => (st1, .error e)
          | (st1, .ok _) => enumVariantsLoop fuel st1 vDecs variants
        | _ => (st, .error (.generic, .concrete t.span st.file))

/-- `enum_decl` (ast.rs lines 612-714). -/
def enumDeclP (fuel : Nat) (st : PState) (decorators : List (PLoc Decorator)) (attrs : List (PLoc PAttribute)) : PState × PRes Ast :=
  match declHeaderP fuel st .enumTok with
  | (st1, .error e) => (st1, .error e)
  | (st1, .ok (startSpan, name, gens, sigSpan)) =>
    match enumVariantsLoop fuel st1 [] [] with
    | (st2, .error e) => (st2, .error e)
    | (st2, .ok variants) =>
      match eatT st2 .endTok [.newline] with
      | (st3, .error e) => (st3, .error e)
      | (st3, .ok endT) =>
        (st3, .ok (.enumDecl ⟨⟨decorators, finishVis attrs (.concrete sigSpan st3.file), name, gens, variants⟩, .concrete (Span.merge startSpan endT.span) st3.file⟩))

/-- The method loop of `trait_decl` (ast.rs lines 541-589).  A method's
injected visibility is located at `Location::implicit(index_span)`; the
token-index tracking behind `index_span` is not under src/, so that span
is modelled as the empty span (Modelled from the spec).  The source's
`unreachable!()` arm for a non-function result of `function` is modelled
as a generic error. -/
def traitMethodsLoop (fuel : Nat) (st : PState) (mDecs : List (PLoc Decorator)) (mAttrs : List (PLoc PAttribute)) (methods : List (PLoc PFunction)) : PState × PRes (List (PLoc PFunction)) :=
  match fuel with
  | 0 => (st, .error (.outOfFuel, .concrete ⟨0, 0⟩ st.file))
  | fuel + 1 =>
    match peekT st with
    | .error e => (st, .error e)
    | .ok t =>
      if t.ty = .endTok then (st, .ok methods)
      else
        match t.ty with
        | .atSign =>
          match decoratorP fuel st mDecs with
          | (st1, .error e) => (st1, .error e)
          | (st1, .ok mDecs2) => traitMethodsLoop fuel st1 mDecs2 mAttrs methods
        | .exposed | .package =>
          match nextT st with
          | (st1, .error e) => (st1, .error e)
          | (st1, .ok tok) =>
            match attrFrom tok st1.file with
            | .error e => (st1, .error e)
            | .ok attr => traitMethodsLoop fuel st1 mDecs (mAttrs ++ [⟨attr, .concrete tok.span st1.file⟩]) methods
        | .function =>
          match functionP fuel st mDecs (finishVis mAttrs (.implicit ⟨0, 0⟩ st.file)) with
          | (st1, .error e) => (st1, .error e)
          | (st1, .ok ast) =>
            match ast with
            | .function m => traitMethodsLoop fuel st1 [] [] (methods ++ [m])
            | _ => (st1, .error (.generic, .concrete ⟨0, 0⟩ st1.file))
        | .newline =>
          match eatT st .newline [] with
          | (st1, .error e) => (st1, .error e)
          | (st1, .ok _) => traitMethodsLoop fuel st1 mDecs mAttrs methods
        | _ => (st, .error (.generic, .concrete t.span st.file))

/-- `trait_decl` (ast.rs lines 523-610). -/
def traitDeclP (fuel : Nat) (st : PState) (decorators : List (PLoc Decorator)) (attrs : List (PLoc PAttribute)) : PState × PRes Ast :=
  match declHeaderP fuel st .traitTok with
  | (st1, .error e) => (st1, .error e)
  | (st1, .ok (startSpan, name, gens, sigSpan)) =>
    match traitMethodsLoop fuel st1 [] [] [] with
    | (st2, .error e) => (st2, .error e)
    | (st2, .ok methods) =>
      match eatT st2 .endTok [.newline] with
      | (st3, .error e) => (st3, .error e)
      | (st3, .ok endT) =>
        (st3, .ok (.traitDecl ⟨⟨decorators, finishVis attrs (.concrete sigSpan st3.file), name, gens, methods⟩, .concrete (Span.merge startSpan endT.span) st3.file⟩))

/-- C8 counterexample: parsing `type T` + newline + `end` (no visibility
attribute in the source) injects the `FileLocal` visibility at a
*concrete* location — not an implicit one as the claim states — though it
does carry the signature span. -/
theorem C8_counterexample :
    ((typeDeclP 10 ⟨[⟨.typeTok, [], ⟨0, 4⟩⟩, ⟨.ident, ['T'], ⟨5, 6⟩⟩, ⟨.newline, [], ⟨6, 7⟩⟩, ⟨.endTok, [], ⟨7, 10⟩⟩], 0⟩ [] []).2 =
        Except.ok (Ast.typeDecl ⟨⟨[], [⟨.visibility .fileLocal, .concrete ⟨0, 7⟩ 0⟩], ['T'], [], []⟩, .concrete ⟨0, 10⟩ 0⟩) ∧
      (Location.concrete ⟨0, 7⟩ 0).isImplicit = false) := by
  constructor
  · rfl
  · rfl

theorem finishVis_of_no_vis (attrs : List (PLoc PAttribute)) (loc : Location)
    (hvis : attrs.any (fun (a : PLoc PAttribute) => a.data.is_visibility) = false) :
    finishVis attrs loc = attrs ++ [⟨.visibility .fileLocal, loc⟩] := by
  unfold finishVis
  rw [hvis]
  rfl

/-- C8 (amended): when the attribute list passed to a declaration parser
contains no visibility, every declaration parser appends a
`Visibility(FileLocal)` attribute located at the declaration's signature
span; the injected location is implicit for `function` but *concrete* for
`type_decl`, `enum_decl` and `trait_decl`. -/
theorem C8_visibility_injection
    (fuel : Nat) (st : PState) (ds : List (PLoc Decorator)) (attrs : List (PLoc PAttribute))
    (hvis : attrs.any (fun (a : PLoc PAttribute) => a.data.is_visibility) = false) :
    ((∀ st1 startSpan name args returns sigSpan f,
        fnHeaderP fuel st = (st1, .ok (startSpan, name, args, returns, sigSpan)) →
        (functionP fuel st ds attrs).2 = .ok (.function f) →
        ∃ fid, f.data.attrs = attrs ++ [⟨.visibility .fileLocal, .implicit sigSpan fid⟩]) ∧
     (∀ st1 startSpan name gens sigSpan t,
        declHeaderP fuel st .typeTok = (st1, .ok (startSpan, name, gens, sigSpan)) →
        (typeDeclP fuel st ds attrs).2 = .ok (.typeDecl t) →
        ∃ fid, t.data.attrs = attrs ++ [⟨.visibility .fileLocal, .concrete sigSpan fid⟩]) ∧
     (∀ st1 startSpan name gens sigSpan v,
        declHeaderP fuel st .enumTok = (st1, .ok (startSpan, name, gens, sigSpan)) →
        (enumDeclP fuel st ds attrs).2 = .ok (.enumDecl v) →
        ∃ fid, v.data.attrs = attrs ++ [⟨.visibility .fileLocal, .concrete sigSpan fid⟩]) ∧
     (∀ st1 startSpan name gens sigSpan tr,
        declHeaderP fuel st .traitTok = (st1, .ok (startSpan, name, gens, sigSpan)) →
        (traitDeclP fuel st ds attrs).2 = .ok (.traitDecl tr) →
        ∃ fid, tr.data.attrs = attrs ++ [⟨.visibility .fileLocal, .concrete sigSpan fid⟩])) := by
  refine ⟨?_, ?_, ?_, ?_⟩
  · intro st1 startSpan name args returns sigSpan f h1 h2
    unfold functionP at h2
    rw [h1] at h2
    repeat' split at h2
    all_goals try simp_all [finishVis_of_no_vis attrs _ hvis]
    all_goals (rw [← h2]; exact ⟨_, rfl⟩)
  · intro st1 startSpan name gens sigSpan t h1 h2
    unfold typeDeclP at h2
    rw [h1] at h2
    repeat' split at h2
    all_goals try simp_all [finishVis_of_no_vis attrs _ hvis]
    all_goals (rw [← h2]; exact ⟨_, rfl⟩)
  · intro st1 startSpan name gens sigSpan v h1 h2
    unfold enumDeclP at h2
    rw [h1] at h2
    repeat' split at h2
    all_goals try simp_all [finishVis_of_no_vis attrs _ hvis]
    all_goals (rw [← h2]; exact ⟨_, rfl⟩)
  · intro st1 startSpan name gens sigSpan tr h1 h2
    unfold traitDeclP at h2
    rw [h1] at h2
    repeat' split at h2
    all_goals try simp_all [finishVis_of_no_vis attrs _ hvis]
    all_goals (rw [← h2]; exact ⟨_, rfl⟩)

theorem C8_visibility_injection_witness :
    ∃ fid, ([⟨PAttribute.visibility .fileLocal, Location.implicit ⟨0, 7⟩ 0⟩] : List (PLoc PAttribute)) =
      [] ++ [⟨PAttribute.visibility .fileLocal, Location.implicit ⟨0, 7⟩ fid⟩] :=
  (C8_visibility_injection 10 ⟨[⟨.function, [], ⟨0, 2⟩⟩, ⟨.ident, ['f'], ⟨3, 4⟩⟩, ⟨.leftParen, [], ⟨4, 5⟩⟩, ⟨.rightParen, [], ⟨5, 6⟩⟩, ⟨.newline, [], ⟨6, 7⟩⟩, ⟨.endTok, [], ⟨7, 10⟩⟩], 0⟩ [] [] (by decide)).1
    ⟨[⟨.endTok, [], ⟨7, 10⟩⟩], 0⟩ ⟨0, 2⟩ ['f'] [] ⟨.default, .implicit ⟨0, 7⟩ 0⟩ ⟨0, 7⟩
    ⟨⟨[], [⟨.visibility .fileLocal, .implicit ⟨0, 7⟩ 0⟩], ['f'], [], ⟨.default, .implicit ⟨0, 7⟩ 0⟩, []⟩, .concrete ⟨0, 10⟩ 0⟩
    (by rfl) (by rfl)

end Crunch
